import Mathlib

/-!
Shallow embedding of the ch-rzl timing / easing / color core.

`f64` values are embedded as `ℚ` wherever the source performs only field
arithmetic and comparisons (every finite double is a rational, and the
claims under study concern the branch structure and algebra of the code,
not rounding of individual float operations).  The easing curves use
square roots and trigonometric functions, so they are embedded over `ℝ`.
Binary-search loops are written with an explicit fuel argument (structural
recursion); the callers pass `length` fuel, which is provably sufficient
since each iteration shrinks the window `right + 1 - left` by at least one.
-/

namespace ChRzl

/-- Embedding of `src/chart.rs` `BpmShift`: a tempo breakpoint (`time` is the tick,
`floorPosition` the wall-clock seconds of that tick). -/
structure BpmShift where
  time : ℚ
  value : ℚ
  easeType : ℕ
  floorPosition : ℚ
  deriving DecidableEq

/-- Embedding of `src/chart.rs` `KeyPoint`: a keyframe with a runtime cache `fp`. -/
structure KeyPoint where
  time : ℚ
  value : ℚ
  easeType : ℕ
  floorPosition : ℚ
  fp : Option ℚ
  deriving DecidableEq

/-- Junk element used for the (provably in-range) list indexing of the
Rust code, mirroring that Rust indexing never goes out of bounds here. -/
def kp0 : KeyPoint := ⟨0, 0, 0, 0, none⟩

/-- Junk `BpmShift` for total indexing. -/
def bs0 : BpmShift := ⟨0, 0, 0, 0⟩

/-- Loop of `seconds_to_tick`: the scan over `i in 1..len` with `prev = shifts[i-1]`:
structural pairing of the previous and remaining shifts, including the
beyond-last extrapolation arm. -/
def s2tScan (seconds : ℚ) (baseBpm : ℚ) : BpmShift → List BpmShift → ℚ
  | prev, [] =>
      prev.time + (seconds - prev.floorPosition) / (60 / (baseBpm * prev.value))
  | prev, curr :: rest =>
      if seconds ≤ curr.floorPosition then
        prev.time +
          ((seconds - prev.floorPosition) / (curr.floorPosition - prev.floorPosition)) *
            (curr.time - prev.time)
      else s2tScan seconds baseBpm curr rest

/-- Embedding of `src/timing.rs` `seconds_to_tick`. -/
def seconds_to_tick (seconds : ℚ) (bpmShifts : List BpmShift) (baseBpm : ℚ) : ℚ :=
  match bpmShifts with
  | [] => seconds / (60 / baseBpm)
  | first :: rest =>
      if seconds ≤ first.floorPosition then
        seconds / (60 / (baseBpm * first.value))
      else s2tScan seconds baseBpm first rest

/-- Loop of `tick_to_seconds` over `i in 1..len`, same shape as `s2tScan`. -/
def t2sScan (tick : ℚ) (baseBpm : ℚ) : BpmShift → List BpmShift → ℚ
  | prev, [] =>
      prev.floorPosition + (tick - prev.time) * (60 / (baseBpm * prev.value))
  | prev, curr :: rest =>
      if tick ≤ curr.time then
        prev.floorPosition +
          ((tick - prev.time) / (curr.time - prev.time)) *
            (curr.floorPosition - prev.floorPosition)
      else t2sScan tick baseBpm curr rest

/-- Embedding of `src/timing.rs` `tick_to_seconds`. -/
def tick_to_seconds (tick : ℚ) (bpmShifts : List BpmShift) (baseBpm : ℚ) : ℚ :=
  match bpmShifts with
  | [] => tick * (60 / baseBpm)
  | first :: rest =>
      if tick ≤ first.time then
        tick * (60 / (baseBpm * first.value))
      else t2sScan tick baseBpm first rest

/-- Inner pass of `recalculate_fps`: each element's cache is the already
updated previous element's cache plus `prev.value * (Δ seconds)`. -/
def recalcAux (bpmShifts : List BpmShift) (baseBpm : ℚ) :
    KeyPoint → List KeyPoint → List KeyPoint
  | _, [] => []
  | prev, curr :: rest =>
      let fp := prev.fp.getD 0 +
        prev.value *
          (tick_to_seconds curr.time bpmShifts baseBpm -
            tick_to_seconds prev.time bpmShifts baseBpm)
      let curr' : KeyPoint := { curr with fp := some fp }
      curr' :: recalcAux bpmShifts baseBpm curr' rest

/-- Embedding of `src/timing.rs` `recalculate_fps` (the in-place mutation is modelled as
returning the updated list). -/
def recalculate_fps (speedKeyPoints : List KeyPoint) (bpmShifts : List BpmShift)
    (baseBpm : ℚ) : List KeyPoint :=
  match speedKeyPoints with
  | [] => []
  | first :: rest =>
      let first' : KeyPoint := { first with fp := some 0 }
      first' :: recalcAux bpmShifts baseBpm first' rest

/-- The binary-search loop of `speed_to_fp`, with explicit fuel (the
caller passes the list length, which bounds the iteration count since the
window `right + 1 - left` shrinks every round). -/
def stfLoop (kps : List KeyPoint) (bpmShifts : List BpmShift) (baseBpm : ℚ)
    (timer : ℚ) : ℕ → ℕ → ℕ → ℕ → ℕ
  | 0, _, _, target => target
  | fuel + 1, left, right, target =>
      if left ≤ right then
        let mid := (left + right) / 2
        let midTime := tick_to_seconds ((kps.getD mid kp0).time) bpmShifts baseBpm
        if midTime ≤ timer then
          stfLoop kps bpmShifts baseBpm timer fuel (mid + 1) right mid
        else if mid = 0 then target
        else stfLoop kps bpmShifts baseBpm timer fuel left (mid - 1) target
      else target

/-- Embedding of `src/timing.rs` `speed_to_fp`. -/
def speed_to_fp (timer : ℚ) (speedKeyPoints : List KeyPoint)
    (bpmShifts : List BpmShift) (baseBpm : ℚ) : ℚ :=
  match speedKeyPoints with
  | [] => 0
  | kps@(_ :: _) =>
      let n := kps.length
      let targetIndex := stfLoop kps bpmShifts baseBpm timer n 0 (n - 1) (n - 1)
      let current := kps.getD targetIndex kp0
      let currentTime := tick_to_seconds current.time bpmShifts baseBpm
      let t2 := timer - currentTime
      current.fp.getD 0 + t2 * current.value

/-- Machine epsilon `f64::EPSILON` = 2⁻⁵². -/
def f64Eps : ℚ := 1 / 2 ^ (52 : ℕ)

/-- The binary-search loop of `find_value` with explicit fuel.  `Sum.inl v`
models the early `return mid_event.value` on an epsilon-exact hit;
`Sum.inr (event1, event2)` models falling out of the loop (by `break` or by
`left > right`) carrying the two bracketing candidates. -/
def fvLoop (events : List KeyPoint) (tick : ℚ) :
    ℕ → ℕ → ℕ → Option ℕ → Option ℕ → ℚ ⊕ (Option ℕ × Option ℕ)
  | 0, _, _, ev1, ev2 => Sum.inr (ev1, ev2)
  | fuel + 1, left, right, ev1, ev2 =>
      if left ≤ right then
        let mid := (left + right) / 2
        let me := events.getD mid kp0
        if |me.time - tick| < f64Eps then Sum.inl me.value
        else if me.time < tick then
          fvLoop events tick fuel (mid + 1) right (some mid) ev2
        else if mid = 0 then Sum.inr (ev1, some mid)
        else fvLoop events tick fuel left (mid - 1) ev1 (some mid)
      else Sum.inr (ev1, ev2)

/-! ### Easing library (`src/easing.rs`), over `ℝ` -/

noncomputable section

/-- Curve `linear` of `src/easing.rs`. -/
def linear (x : ℝ) : ℝ := x

/-- Curve `ease_in_quad` of `src/easing.rs`. -/
def ease_in_quad (x : ℝ) : ℝ := x * x

/-- Curve `ease_out_quad` of `src/easing.rs`. -/
def ease_out_quad (x : ℝ) : ℝ := 1 - (1 - x) * (1 - x)

open Classical in
/-- Curve `ease_in_out_quad` of `src/easing.rs`. -/
def ease_in_out_quad (x : ℝ) : ℝ :=
  if x < 0.5 then 2 * x * x else 1 - (-2 * x + 2) ^ (2 : ℕ) / 2

/-- Curve `ease_in_cubic` of `src/easing.rs`. -/
def ease_in_cubic (x : ℝ) : ℝ := x * x * x

/-- Curve `ease_out_cubic` of `src/easing.rs`. -/
def ease_out_cubic (x : ℝ) : ℝ := 1 - (1 - x) ^ (3 : ℕ)

open Classical in
/-- Curve `ease_in_out_cubic` of `src/easing.rs`. -/
def ease_in_out_cubic (x : ℝ) : ℝ :=
  if x < 0.5 then 4 * x * x * x else 1 - (-2 * x + 2) ^ (3 : ℕ) / 2

/-- Curve `ease_in_quart` of `src/easing.rs`. -/
def ease_in_quart (x : ℝ) : ℝ := x * x * x * x

/-- Curve `ease_out_quart` of `src/easing.rs`. -/
def ease_out_quart (x : ℝ) : ℝ := 1 - (1 - x) ^ (4 : ℕ)

open Classical in
/-- Curve `ease_in_out_quart` of `src/easing.rs`. -/
def ease_in_out_quart (x : ℝ) : ℝ :=
  if x < 0.5 then 8 * x * x * x * x else 1 - (-2 * x + 2) ^ (4 : ℕ) / 2

/-- Curve `ease_in_quint` of `src/easing.rs`. -/
def ease_in_quint (x : ℝ) : ℝ := x * x * x * x * x

/-- Curve `ease_out_quint` of `src/easing.rs`. -/
def ease_out_quint (x : ℝ) : ℝ := 1 - (1 - x) ^ (5 : ℕ)

open Classical in
/-- Curve `ease_in_out_quint` of `src/easing.rs`. -/
def ease_in_out_quint (x : ℝ) : ℝ :=
  if x < 0.5 then 16 * x * x * x * x * x else 1 - (-2 * x + 2) ^ (5 : ℕ) / 2

/-- Curve `ease_zero` of `src/easing.rs`. -/
def ease_zero (_x : ℝ) : ℝ := 0

/-- Curve `ease_one` of `src/easing.rs`. -/
def ease_one (_x : ℝ) : ℝ := 1

/-- Curve `ease_in_circ` of `src/easing.rs`. -/
def ease_in_circ (x : ℝ) : ℝ := 1 - Real.sqrt (1 - x * x)

/-- Curve `ease_out_circ` of `src/easing.rs`. -/
def ease_out_circ (x : ℝ) : ℝ := Real.sqrt (1 - (x - 1) ^ (2 : ℕ))

/-- Curve `ease_out_sine` of `src/easing.rs`. -/
def ease_out_sine (x : ℝ) : ℝ := Real.sin (x * Real.pi / 2)

/-- Curve `ease_in_sine` of `src/easing.rs`. -/
def ease_in_sine (x : ℝ) : ℝ := 1 - Real.cos (x * Real.pi / 2)

/-- Embedding of `src/easing.rs` `get_ease_func`: dispatch by index, defaulting to
`linear` outside `0..=18`. -/
def get_ease_func (easeType : ℕ) : ℝ → ℝ :=
  match easeType with
  | 0 => linear
  | 1 => ease_in_quad
  | 2 => ease_out_quad
  | 3 => ease_in_out_quad
  | 4 => ease_in_cubic
  | 5 => ease_out_cubic
  | 6 => ease_in_out_cubic
  | 7 => ease_in_quart
  | 8 => ease_out_quart
  | 9 => ease_in_out_quart
  | 10 => ease_in_quint
  | 11 => ease_out_quint
  | 12 => ease_in_out_quint
  | 13 => ease_zero
  | 14 => ease_one
  | 15 => ease_in_circ
  | 16 => ease_out_circ
  | 17 => ease_out_sine
  | 18 => ease_in_sine
  | _ => linear

/-- Embedding of Rust `f64::clamp(0.0, 1.0)` = `max` with the lower bound, then `min`
with the upper bound. -/
def clamp01 (t : ℝ) : ℝ := min (max t 0) 1

/-- Embedding of `src/easing.rs` `apply_ease`. -/
def apply_ease (easeType : ℕ) (t : ℝ) : ℝ :=
  get_ease_func easeType (clamp01 t)

end

/-! ### `find_value` (`src/timing.rs`), which calls into the easing library -/

/-- Embedding of `src/timing.rs` `find_value`.  The `t as f32` narrowing is idealised
as the exact inclusion `ℚ → ℝ`. -/
noncomputable def find_value (tick : ℚ) (events : List KeyPoint) : ℝ :=
  match events with
  | [] => 0
  | [e] => if e.time ≤ tick then (e.value : ℝ) else 0
  | e :: rest =>
      let evs := e :: rest
      let n := evs.length
      let lastEvent := evs.getD (n - 1) kp0
      if lastEvent.time < tick then (lastEvent.value : ℝ)
      else
        match fvLoop evs tick n 0 (n - 1) none none with
        | Sum.inl v => (v : ℝ)
        | Sum.inr (some i1, some i2) =>
            let e1 := evs.getD i1 kp0
            let e2 := evs.getD i2 kp0
            let t := (tick - e1.time) / (e2.time - e1.time)
            (e1.value : ℝ) + ((e2.value : ℝ) - (e1.value : ℝ)) * apply_ease e1.easeType (t : ℝ)
        | Sum.inr _ => 0

/-! ### Color arithmetic (`src/chart.rs`) -/

/-- Embedding of `src/chart.rs` `Color`: four 8-bit channels, embedded as naturals. -/
structure Color where
  r : ℕ
  g : ℕ
  b : ℕ
  a : ℕ
  deriving DecidableEq

/-- Embedding of Rust `f32::round`: round half away from zero. -/
def qround (q : ℚ) : ℤ := if 0 ≤ q then ⌊q + 1 / 2⌋ else ⌈q - 1 / 2⌉

/-- Embedding of Rust `as u8` on an (integral) float value: saturating cast. -/
def toU8 (z : ℤ) : ℕ := (max 0 (min 255 z)).toNat

/-- One channel of `Color::lerp` / `Color::mix`:
`(self + (other - self) * t).round() as u8`. -/
def lerpChan (a b : ℕ) (t : ℚ) : ℕ :=
  toU8 (qround ((a : ℚ) + ((b : ℚ) - (a : ℚ)) * t))

/-- Embedding of `src/chart.rs` `Color::lerp`. -/
def Color.lerp (c other : Color) (t : ℚ) : Color :=
  ⟨lerpChan c.r other.r t, lerpChan c.g other.g t,
    lerpChan c.b other.b t, lerpChan c.a other.a t⟩

/-- Embedding of `src/chart.rs` `Color::mix`. -/
def Color.mix (c other : Color) : Color :=
  if other.a = 0 then c
  else if other.a = 255 then ⟨other.r, other.g, other.b, c.a⟩
  else
    let mixWeight : ℚ := (other.a : ℚ) / 255
    ⟨lerpChan c.r other.r mixWeight, lerpChan c.g other.g mixWeight,
      lerpChan c.b other.b mixWeight, c.a⟩

/-! ### Line-color segments (`src/game.rs`) -/

/-- Embedding of `src/chart.rs` `LineColor`: one color-transition segment. -/
structure LineColor where
  startColor : Color
  endColor : Color
  time : ℚ
  deriving DecidableEq

/-- The `for i in 0..len` scan of `get_current_line_color`; `none` models
falling through the loop without an early return. -/
def glcScan (tick : ℚ) : LineColor → List LineColor → Option Color
  | seg, rest =>
      let nextTime := match rest with
        | [] => seg.time
        | nxt :: _ => nxt.time
      if seg.time ≤ tick ∧ tick < nextTime then
        let duration := nextTime - seg.time
        if 0 < duration then
          let progress := (tick - seg.time) / duration
          some (seg.startColor.lerp seg.endColor progress)
        else some seg.startColor
      else
        match rest with
        | [] => none
        | nxt :: r => glcScan tick nxt r

/-- Junk `LineColor` for total indexing. -/
def lc0 : LineColor := ⟨⟨0, 0, 0, 0⟩, ⟨0, 0, 0, 0⟩, 0⟩

/-- Embedding of `src/game.rs` `get_current_line_color`. -/
def get_current_line_color (lineColor : List LineColor) (tick : ℚ) : Option Color :=
  match lineColor with
  | [] => none
  | [s] => some s.startColor
  | s :: rest =>
      let lc := s :: rest
      let lastSeg := lc.getD (lc.length - 1) lc0
      if lastSeg.time ≤ tick then some lastSeg.endColor
      else
        match glcScan tick s rest with
        | some c => some c
        | none => some s.startColor

/-! ### Generic indexing helpers -/

theorem pairwise_getD {α : Type} {R : α → α → Prop} {l : List α} (hp : l.Pairwise R)
    (d : α) {i j : ℕ} (hij : i < j) (hj : j < l.length) :
    R (l.getD i d) (l.getD j d) := by
  have hi : i < l.length := lt_trans hij hj
  rw [List.getD_eq_getElem l d hi, List.getD_eq_getElem l d hj]
  exact List.pairwise_iff_get.mp hp ⟨i, hi⟩ ⟨j, hj⟩ hij

/-! ### Helper lemmas on rounding -/

theorem qround_of_nonneg {q : ℚ} (h : 0 ≤ q) : qround q = ⌊q + 1 / 2⌋ := by
  simp [qround, h]

theorem qround_nonneg {q : ℚ} (h : 0 ≤ q) : 0 ≤ qround q := by
  rw [qround_of_nonneg h]
  positivity

theorem qround_le {q : ℚ} {m : ℕ} (h0 : 0 ≤ q) (h : q ≤ (m : ℚ)) : qround q ≤ (m : ℤ) := by
  rw [qround_of_nonneg h0]
  have : (⌊q + 1 / 2⌋ : ℤ) < (m : ℤ) + 1 := by
    rw [Int.floor_lt]
    push_cast
    linarith
  omega

theorem toU8_eq_toNat {z : ℤ} (h0 : 0 ≤ z) (h1 : z ≤ 255) : toU8 z = z.toNat := by
  simp [toU8]
  omega

/-- The blended channel value stays inside `[0, 255]` for in-range inputs
and a weight in `[0, 1]`, so the saturating cast reduces to plain rounding. -/
theorem lerpChan_eq_round {a b : ℕ} {t : ℚ} (ha : a ≤ 255) (hb : b ≤ 255)
    (h0 : 0 ≤ t) (h1 : t ≤ 1) :
    lerpChan a b t = (qround ((a : ℚ) + ((b : ℚ) - (a : ℚ)) * t)).toNat := by
  have hval0 : (0 : ℚ) ≤ (a : ℚ) + ((b : ℚ) - (a : ℚ)) * t := by
    rcases le_total (a : ℚ) (b : ℚ) with h | h
    · nlinarith
    · nlinarith [Nat.cast_nonneg (α := ℚ) b]
  have hval1 : (a : ℚ) + ((b : ℚ) - (a : ℚ)) * t ≤ (255 : ℚ) := by
    have ha' : (a : ℚ) ≤ 255 := by exact_mod_cast ha
    have hb' : (b : ℚ) ≤ 255 := by exact_mod_cast hb
    rcases le_total (a : ℚ) (b : ℚ) with h | h
    · nlinarith
    · nlinarith
  have h255 : ((255 : ℕ) : ℚ) = (255 : ℚ) := by norm_num
  exact toU8_eq_toNat (qround_nonneg hval0)
    (qround_le hval0 (by rw [h255]; exact hval1))

/-- C7: `Color::mix` treats `other.a` as a blend weight: alpha `0` is a
no-op, alpha `255` replaces RGB exactly while keeping the base alpha, and
any other alpha blends each RGB channel linearly (rounded to nearest) with
weight `other.a / 255`; in every case the result's alpha is the base's. -/
theorem claim7_color_mix (c other : Color) :
    (other.a = 0 → c.mix other = c) ∧
    (other.a = 255 → c.mix other = ⟨other.r, other.g, other.b, c.a⟩) ∧
    (other.a ≠ 0 → other.a ≠ 255 →
      c.r ≤ 255 → c.g ≤ 255 → c.b ≤ 255 →
      other.r ≤ 255 → other.g ≤ 255 → other.b ≤ 255 → other.a ≤ 255 →
      c.mix other =
        ⟨(qround ((c.r : ℚ) + ((other.r : ℚ) - (c.r : ℚ)) * ((other.a : ℚ) / 255))).toNat,
          (qround ((c.g : ℚ) + ((other.g : ℚ) - (c.g : ℚ)) * ((other.a : ℚ) / 255))).toNat,
          (qround ((c.b : ℚ) + ((other.b : ℚ) - (c.b : ℚ)) * ((other.a : ℚ) / 255))).toNat,
          c.a⟩) ∧
    (c.mix other).a = c.a := by
  refine ⟨fun h0 => by simp [Color.mix, h0], fun h255 => by simp [Color.mix, h255], ?_, ?_⟩
  · intro h0 h255 hcr hcg hcb hor hog hob hoa
    have hw0 : (0 : ℚ) ≤ (other.a : ℚ) / 255 := by positivity
    have hw1 : (other.a : ℚ) / 255 ≤ 1 := by
      rw [div_le_one (by norm_num)]
      exact_mod_cast hoa
    simp only [Color.mix, if_neg h0, if_neg h255]
    rw [lerpChan_eq_round hcr hor hw0 hw1, lerpChan_eq_round hcg hog hw0 hw1,
      lerpChan_eq_round hcb hob hw0 hw1]
  · by_cases h0 : other.a = 0
    · simp [Color.mix, h0]
    · by_cases h255 : other.a = 255
      · simp [Color.mix, h0, h255]
      · simp [Color.mix, h0, h255]

/-- C7 witness: mixing a mid-alpha red onto a gray at concrete channels. -/
theorem claim7_color_mix_witness :
    (Color.mix ⟨100, 100, 100, 40⟩ ⟨200, 0, 100, 51⟩ =
      ⟨(qround ((100 : ℚ) + ((200 : ℚ) - 100) * ((51 : ℚ) / 255))).toNat,
        (qround ((100 : ℚ) + ((0 : ℚ) - 100) * ((51 : ℚ) / 255))).toNat,
        (qround ((100 : ℚ) + ((100 : ℚ) - 100) * ((51 : ℚ) / 255))).toNat, 40⟩) ∧
    (Color.mix ⟨1, 2, 3, 4⟩ ⟨9, 9, 9, 0⟩ = ⟨1, 2, 3, 4⟩) ∧
    (Color.mix ⟨1, 2, 3, 4⟩ ⟨9, 8, 7, 255⟩ = ⟨9, 8, 7, 4⟩) := by
  refine ⟨?_, ?_, ?_⟩
  · exact (claim7_color_mix ⟨100, 100, 100, 40⟩ ⟨200, 0, 100, 51⟩).2.2.1
      (by norm_num) (by norm_num) (by norm_num) (by norm_num) (by norm_num)
      (by norm_num) (by norm_num) (by norm_num) (by norm_num)
  · exact (claim7_color_mix ⟨1, 2, 3, 4⟩ ⟨9, 9, 9, 0⟩).1 rfl
  · exact (claim7_color_mix ⟨1, 2, 3, 4⟩ ⟨9, 8, 7, 255⟩).2.1 rfl

/-! ### C9: `apply_ease` is total, clamps, and falls back to `linear` -/

theorem get_ease_func_of_ge (easeType : ℕ) (h : 19 ≤ easeType) :
    get_ease_func easeType = linear := by
  rw [get_ease_func.eq_def]
  split <;> first | rfl | omega

/-- C9: `apply_ease` clamps its input to `[0,1]` before evaluating the
dispatched curve, and every index `≥ 19` dispatches to the identity
(linear) curve, so there `apply_ease id t = clamp(t, 0, 1)`. -/
theorem claim9_apply_ease_total :
    (∀ easeType : ℕ, ∀ t : ℝ, apply_ease easeType t = get_ease_func easeType (clamp01 t)) ∧
    (∀ easeType : ℕ, 19 ≤ easeType → get_ease_func easeType = linear) ∧
    (∀ easeType : ℕ, ∀ t : ℝ, 19 ≤ easeType → apply_ease easeType t = clamp01 t) := by
  refine ⟨fun _ _ => rfl, get_ease_func_of_ge, fun easeType t h => ?_⟩
  rw [apply_ease, get_ease_func_of_ge easeType h, linear]

/-- C9 witness: index 19 (just past the table) behaves as the clamped
identity on a concrete out-of-range input. -/
theorem claim9_apply_ease_total_witness :
    apply_ease 19 (5 / 4 : ℝ) = clamp01 (5 / 4 : ℝ) :=
  claim9_apply_ease_total.2.2 19 (5 / 4 : ℝ) (by norm_num)

/-! ### C6: `get_current_line_color` -/

theorem glcScan_cons (tick : ℚ) (seg nxt : LineColor) (r : List LineColor) :
    glcScan tick seg (nxt :: r) =
      if seg.time ≤ tick ∧ tick < nxt.time then
        (if 0 < nxt.time - seg.time then
          some (seg.startColor.lerp seg.endColor ((tick - seg.time) / (nxt.time - seg.time)))
        else some seg.startColor)
      else glcScan tick nxt r := rfl

theorem glc_cons_cons (tick : ℚ) (s nxt : LineColor) (r : List LineColor) :
    get_current_line_color (s :: nxt :: r) tick =
      if ((s :: nxt :: r).getD ((s :: nxt :: r).length - 1) lc0).time ≤ tick then
        some ((s :: nxt :: r).getD ((s :: nxt :: r).length - 1) lc0).endColor
      else
        match glcScan tick s (nxt :: r) with
        | some c => some c
        | none => some s.startColor := rfl

theorem transLtTime : ∀ a b c : LineColor, a.time < b.time → b.time < c.time → a.time < c.time :=
  fun _ _ _ h1 h2 => lt_trans h1 h2

theorem glcScan_bracket (tick : ℚ) :
    ∀ (i : ℕ) (seg : LineColor) (rest : List LineColor),
    List.Chain' (fun p q : LineColor => p.time < q.time) (seg :: rest) →
    i + 1 < (seg :: rest).length →
    ((seg :: rest).getD i lc0).time ≤ tick →
    tick < ((seg :: rest).getD (i + 1) lc0).time →
    glcScan tick seg rest =
      some (((seg :: rest).getD i lc0).startColor.lerp
        ((seg :: rest).getD i lc0).endColor
        ((tick - ((seg :: rest).getD i lc0).time) /
          (((seg :: rest).getD (i + 1) lc0).time - ((seg :: rest).getD i lc0).time))) := by
  haveI : IsTrans LineColor (fun p q : LineColor => p.time < q.time) := ⟨transLtTime⟩
  intro i
  induction i with
  | zero =>
      intro seg rest hchain hlen hle hlt
      match rest with
      | nxt :: r =>
        simp only [List.getD_cons_zero, List.getD_cons_succ] at hle hlt ⊢
        have hdur : 0 < nxt.time - seg.time := by
          have := (List.chain'_cons.mp hchain).1
          linarith
        rw [glcScan_cons,
          if_pos (show seg.time ≤ tick ∧ tick < nxt.time from ⟨hle, hlt⟩), if_pos hdur]
  | succ j ih =>
      intro seg rest hchain hlen hle hlt
      match rest with
      | nxt :: r =>
        have hpw : (seg :: nxt :: r).Pairwise (fun p q : LineColor => p.time < q.time) :=
          (List.chain'_iff_pairwise).mp hchain
        have hjlen : j < (nxt :: r).length := by
          simp only [List.length_cons] at hlen ⊢
          omega
        have hnxt_le : nxt.time ≤ ((nxt :: r).getD j lc0).time := by
          rcases Nat.eq_zero_or_pos j with hj | hj
          · subst hj; simp
          · have hsub : (nxt :: r).Pairwise (fun p q : LineColor => p.time < q.time) :=
              List.Pairwise.sublist (List.sublist_cons_self _ _) hpw
            have := pairwise_getD hsub lc0 hj hjlen
            simpa using le_of_lt this
        have hcond : ¬(seg.time ≤ tick ∧ tick < nxt.time) := by
          rintro ⟨-, hlt2⟩
          have : tick < ((nxt :: r).getD j lc0).time := lt_of_lt_of_le hlt2 hnxt_le
          simp only [List.getD_cons_succ] at hle
          linarith
        rw [glcScan_cons, if_neg hcond]
        have := ih nxt r (List.chain'_cons.mp hchain).2
          (by simpa using Nat.succ_lt_succ_iff.mp (by simpa using hlen))
          (by simpa using hle) (by simpa using hlt)
        simpa using this

/-- Scenario color white of the spec. -/
def cWhite : Color := ⟨255, 255, 255, 255⟩

/-- Scenario color black. -/
def cBlack : Color := ⟨0, 0, 0, 255⟩

/-- The two scenario color segments: white→black at tick 0, black→white
at tick 10. -/
def scenarioSegs : List LineColor := [⟨cWhite, cBlack, 0⟩, ⟨cBlack, cWhite, 10⟩]

/-- C6: the `colorAt` boundary contract of `get_current_line_color`:
empty list → `none`; single segment → its start color at every tick; two
or more segments with the query at or past the last segment's tick → that
segment's end color; an interior query bracketed by consecutive segments →
the un-eased linear lerp of the bracketing segment's colors at fractional
progress; and the concrete white/black scenario at ticks 5 and 15. -/
theorem claim6_line_color_contract :
    (∀ tick : ℚ, get_current_line_color [] tick = none) ∧
    (∀ tick : ℚ, ∀ s : LineColor, get_current_line_color [s] tick = some s.startColor) ∧
    (∀ tick : ℚ, ∀ lc : List LineColor, 2 ≤ lc.length →
      (lc.getD (lc.length - 1) lc0).time ≤ tick →
      get_current_line_color lc tick = some (lc.getD (lc.length - 1) lc0).endColor) ∧
    (∀ tick : ℚ, ∀ lc : List LineColor,
      List.Chain' (fun p q : LineColor => p.time < q.time) lc →
      ∀ i : ℕ, i + 1 < lc.length →
      (lc.getD i lc0).time ≤ tick → tick < (lc.getD (i + 1) lc0).time →
      get_current_line_color lc tick =
        some ((lc.getD i lc0).startColor.lerp (lc.getD i lc0).endColor
          ((tick - (lc.getD i lc0).time) /
            ((lc.getD (i + 1) lc0).time - (lc.getD i lc0).time)))) ∧
    get_current_line_color scenarioSegs 5 = some (cWhite.lerp cBlack (1 / 2)) ∧
    get_current_line_color scenarioSegs 15 = some cWhite := by
  haveI : IsTrans LineColor (fun p q : LineColor => p.time < q.time) := ⟨transLtTime⟩
  refine ⟨fun _ => rfl, fun _ _ => rfl, ?_, ?_, ?_, ?_⟩
  · intro tick lc hlen hle
    match lc, hlen with
    | s :: nxt :: r, _ =>
      rw [glc_cons_cons, if_pos hle]
  · intro tick lc hchain i hlen hle hlt
    match lc, hlen with
    | s :: nxt :: r, hlen =>
      have hpw : (s :: nxt :: r).Pairwise (fun p q : LineColor => p.time < q.time) :=
        (List.chain'_iff_pairwise).mp hchain
      have hlast_lt : (s :: nxt :: r).length - 1 < (s :: nxt :: r).length := by simp
      have hi1 : i + 1 ≤ (s :: nxt :: r).length - 1 := by
        simp only [List.length_cons] at hlen ⊢
        omega
      have hlast : ¬((s :: nxt :: r).getD ((s :: nxt :: r).length - 1) lc0).time ≤ tick := by
        rcases eq_or_lt_of_le hi1 with he | hl
        · rw [← he]; linarith
        · have := pairwise_getD hpw lc0 hl hlast_lt
          push_neg
          linarith
      rw [glc_cons_cons, if_neg hlast,
        glcScan_bracket tick i s (nxt :: r) hchain hlen hle hlt]
  · norm_num [get_current_line_color, glcScan, scenarioSegs, cWhite, cBlack, lc0]
  · norm_num [get_current_line_color, scenarioSegs, cWhite, cBlack, lc0]

/-- C6 witness: the interior-bracket arm at a concrete three-segment list. -/
theorem claim6_line_color_contract_witness :
    get_current_line_color [⟨cWhite, cBlack, 0⟩, ⟨cBlack, cWhite, 4⟩, ⟨cWhite, cBlack, 8⟩] 5 =
      some (cBlack.lerp cWhite ((5 - 4) / (8 - 4))) := by
  have h := claim6_line_color_contract.2.2.2.1 5
    [⟨cWhite, cBlack, 0⟩, ⟨cBlack, cWhite, 4⟩, ⟨cWhite, cBlack, 8⟩]
    (by norm_num [List.chain'_cons]) 1 (by norm_num) (by norm_num) (by norm_num)
  simpa using h

/-! ### C5: `recalculate_fps` recurrence -/

theorem recalcAux_length (sh : List BpmShift) (b : ℚ) :
    ∀ (l : List KeyPoint) (prev : KeyPoint), (recalcAux sh b prev l).length = l.length := by
  intro l
  induction l with
  | nil => intro prev; rfl
  | cons c r ih => intro prev; simp [recalcAux, ih]

theorem recalcAux_time (sh : List BpmShift) (b : ℚ) :
    ∀ (l : List KeyPoint) (prev : KeyPoint) (i : ℕ),
      ((recalcAux sh b prev l).getD i kp0).time = (l.getD i kp0).time := by
  intro l
  induction l with
  | nil => intro prev i; rfl
  | cons c r ih =>
      intro prev i
      match i with
      | 0 => rfl
      | j + 1 => simpa [recalcAux] using ih _ j

theorem recalcAux_value (sh : List BpmShift) (b : ℚ) :
    ∀ (l : List KeyPoint) (prev : KeyPoint) (i : ℕ),
      ((recalcAux sh b prev l).getD i kp0).value = (l.getD i kp0).value := by
  intro l
  induction l with
  | nil => intro prev i; rfl
  | cons c r ih =>
      intro prev i
      match i with
      | 0 => rfl
      | j + 1 => simpa [recalcAux] using ih _ j

theorem recalcAux_fp (sh : List BpmShift) (b : ℚ) :
    ∀ (l : List KeyPoint) (prev : KeyPoint) (i : ℕ), i < l.length →
      ((prev :: recalcAux sh b prev l).getD (i + 1) kp0).fp =
        some (((prev :: recalcAux sh b prev l).getD i kp0).fp.getD 0 +
          ((prev :: recalcAux sh b prev l).getD i kp0).value *
            (tick_to_seconds ((prev :: recalcAux sh b prev l).getD (i + 1) kp0).time sh b -
              tick_to_seconds ((prev :: recalcAux sh b prev l).getD i kp0).time sh b)) := by
  intro l
  induction l with
  | nil => intro prev i h; simp at h
  | cons c r ih =>
      intro prev i h
      match i with
      | 0 => rfl
      | j + 1 =>
          have hj : j < r.length := by simpa using Nat.succ_lt_succ_iff.mp (by simpa using h)
          simpa [recalcAux] using ih _ j hj

/-- Length is preserved by the recalculation pass. -/
theorem recalculate_fps_length (kps : List KeyPoint) (sh : List BpmShift) (b : ℚ) :
    (recalculate_fps kps sh b).length = kps.length := by
  match kps with
  | [] => rfl
  | first :: rest => simp [recalculate_fps, recalcAux_length]

/-- Ticks are preserved by the recalculation pass. -/
theorem recalculate_fps_time (kps : List KeyPoint) (sh : List BpmShift) (b : ℚ) (i : ℕ) :
    ((recalculate_fps kps sh b).getD i kp0).time = (kps.getD i kp0).time := by
  match kps with
  | [] => rfl
  | first :: rest =>
      match i with
      | 0 => rfl
      | j + 1 => simpa [recalculate_fps] using recalcAux_time sh b rest _ j

/-- Values are preserved by the recalculation pass. -/
theorem recalculate_fps_value (kps : List KeyPoint) (sh : List BpmShift) (b : ℚ) (i : ℕ) :
    ((recalculate_fps kps sh b).getD i kp0).value = (kps.getD i kp0).value := by
  match kps with
  | [] => rfl
  | first :: rest =>
      match i with
      | 0 => rfl
      | j + 1 => simpa [recalculate_fps] using recalcAux_value sh b rest _ j

/-- Scenario speed keyframes of the spec: value 1 at tick 0, value 2 at
tick 4, queried at constant tempo 120 BPM. -/
def scenarioKps : List KeyPoint := [⟨0, 1, 0, 0, none⟩, ⟨4, 2, 0, 0, none⟩]

/-- C5: after `recalculate_fps`, the cache of element 0 is 0 and each
subsequent cache is the previous cache plus the previous value times the
elapsed wall-clock seconds between the two ticks; in the concrete
scenario the second cache is 2 and `speed_to_fp` at 3.0 s is 4.0. -/
theorem claim5_recalculate_fps :
    (∀ (kps : List KeyPoint) (sh : List BpmShift) (b : ℚ), kps ≠ [] →
      ((recalculate_fps kps sh b).getD 0 kp0).fp = some 0) ∧
    (∀ (kps : List KeyPoint) (sh : List BpmShift) (b : ℚ) (i : ℕ),
      i + 1 < (recalculate_fps kps sh b).length →
      ((recalculate_fps kps sh b).getD (i + 1) kp0).fp =
        some (((recalculate_fps kps sh b).getD i kp0).fp.getD 0 +
          ((recalculate_fps kps sh b).getD i kp0).value *
            (tick_to_seconds ((recalculate_fps kps sh b).getD (i + 1) kp0).time sh b -
              tick_to_seconds ((recalculate_fps kps sh b).getD i kp0).time sh b))) ∧
    ((recalculate_fps scenarioKps [] 120).getD 1 kp0).fp = some 2 ∧
    speed_to_fp 3 (recalculate_fps scenarioKps [] 120) [] 120 = 4 := by
  refine ⟨?_, ?_, ?_, ?_⟩
  · intro kps sh b hne
    match kps, hne with
    | first :: rest, _ => rfl
  · intro kps sh b i hlen
    match kps with
    | [] => simp [recalculate_fps] at hlen
    | first :: rest =>
        have hlen2 : i < rest.length := by
          have := recalculate_fps_length (first :: rest) sh b
          simp only [this, List.length_cons] at hlen
          omega
        simpa [recalculate_fps] using
          recalcAux_fp sh b rest { first with fp := some 0 } i hlen2
  · norm_num [recalculate_fps, recalcAux, scenarioKps, tick_to_seconds, kp0]
  · norm_num [recalculate_fps, recalcAux, scenarioKps, speed_to_fp, stfLoop,
      tick_to_seconds, kp0]

/-- C5 witness: the general cache recurrence applied to the concrete
scenario list. -/
theorem claim5_recalculate_fps_witness :
    ((recalculate_fps scenarioKps [] 120).getD 0 kp0).fp = some 0 ∧
    ((recalculate_fps scenarioKps [] 120).getD 1 kp0).fp =
      some (((recalculate_fps scenarioKps [] 120).getD 0 kp0).fp.getD 0 +
        ((recalculate_fps scenarioKps [] 120).getD 0 kp0).value *
          (tick_to_seconds ((recalculate_fps scenarioKps [] 120).getD 1 kp0).time [] 120 -
            tick_to_seconds ((recalculate_fps scenarioKps [] 120).getD 0 kp0).time [] 120)) :=
  ⟨claim5_recalculate_fps.1 scenarioKps [] 120 (by simp [scenarioKps]),
    claim5_recalculate_fps.2.1 scenarioKps [] 120 0
      (by norm_num [recalculate_fps_length, scenarioKps])⟩

/-! ### C2: `speed_to_fp` before the first keyframe -/

/-- If every keyframe's wall-clock time is strictly later than the query,
the search loop never moves its `target` candidate, which therefore stays
at its initial value (the last index). -/
theorem stfLoop_all_above (kps : List KeyPoint) (sh : List BpmShift) (b timer : ℚ)
    (habove : ∀ j, j < kps.length →
      timer < tick_to_seconds ((kps.getD j kp0).time) sh b) :
    ∀ (fuel left right target : ℕ), right < kps.length →
      stfLoop kps sh b timer fuel left right target = target := by
  intro fuel
  induction fuel with
  | zero => intro left right target hr; rfl
  | succ fuel ih =>
      intro left right target hr
      by_cases hlr : left ≤ right
      · have hmid : (left + right) / 2 < kps.length := by omega
        have hmt := habove _ hmid
        simp only [stfLoop, if_pos hlr, if_neg (not_le.mpr hmt)]
        by_cases hm0 : (left + right) / 2 = 0
        · simp [hm0]
        · simp only [if_neg hm0]
          exact ih left ((left + right) / 2 - 1) target (by omega)
      · simp [stfLoop, hlr]

/-- C2: for a query time strictly before the first keyframe's wall-clock
time (keyframes sorted by mapped seconds), `speed_to_fp` extrapolates
backward from the last keyframe: it returns
`last.fp + (timer - secondsOf(last)) * last.value`. -/
theorem claim2_backward_extrapolation (kps : List KeyPoint) (sh : List BpmShift)
    (b timer : ℚ) (hne : kps ≠ [])
    (hsorted : List.Pairwise
      (fun p q : KeyPoint =>
        tick_to_seconds p.time sh b ≤ tick_to_seconds q.time sh b) kps)
    (hbefore : timer < tick_to_seconds ((kps.getD 0 kp0).time) sh b) :
    speed_to_fp timer kps sh b =
      (kps.getD (kps.length - 1) kp0).fp.getD 0 +
        (timer - tick_to_seconds ((kps.getD (kps.length - 1) kp0).time) sh b) *
          (kps.getD (kps.length - 1) kp0).value := by
  have habove : ∀ j, j < kps.length →
      timer < tick_to_seconds ((kps.getD j kp0).time) sh b := by
    intro j hj
    rcases Nat.eq_zero_or_pos j with h0 | hpos
    · subst h0; exact hbefore
    · exact lt_of_lt_of_le hbefore (pairwise_getD hsorted kp0 hpos hj)
  match kps, hne with
  | k :: r, _ =>
    have hloop := stfLoop_all_above (k :: r) sh b timer habove
      (k :: r).length 0 ((k :: r).length - 1) ((k :: r).length - 1) (by simp)
    simp only [speed_to_fp, hloop]

/-- C2 witness: two keyframes whose seconds are 1 and 2, queried at 0. -/
theorem claim2_backward_extrapolation_witness :
    speed_to_fp 0 [⟨1, 5, 0, 0, some 0⟩, ⟨2, 7, 0, 0, some 5⟩] [] 60 =
      (5 : ℚ) + (0 - 2) * 7 := by
  have h := claim2_backward_extrapolation [⟨1, 5, 0, 0, some 0⟩, ⟨2, 7, 0, 0, some 5⟩] [] 60 0
    (by simp) (by norm_num [List.pairwise_cons, tick_to_seconds])
    (by norm_num [tick_to_seconds, kp0])
  simpa [tick_to_seconds, kp0] using h

/-! ### C8: lower-boundary behaviour of `find_value` -/

/-- If every keyframe's tick exceeds the query by at least machine
epsilon, the search loop never records a left candidate: it exits with
`event1 = none` (by `break` at `mid = 0` or by emptying the window). -/
theorem fvLoop_stays_none (events : List KeyPoint) (tick : ℚ)
    (hyp : ∀ j, j < events.length → f64Eps ≤ (events.getD j kp0).time - tick) :
    ∀ (fuel left right : ℕ) (ev2 : Option ℕ), right < events.length →
      ∃ e2, fvLoop events tick fuel left right none ev2 = Sum.inr (none, e2) := by
  intro fuel
  induction fuel with
  | zero => intro left right ev2 hr; exact ⟨ev2, rfl⟩
  | succ fuel ih =>
      intro left right ev2 hr
      by_cases hlr : left ≤ right
      · have hmid : (left + right) / 2 < events.length := by omega
        have hd := hyp _ hmid
        have heps_pos : (0 : ℚ) < f64Eps := by norm_num [f64Eps]
        have habs : ¬ |(events.getD ((left + right) / 2) kp0).time - tick| < f64Eps := by
          rw [abs_of_pos (by linarith)]
          linarith
        have hnlt : ¬ (events.getD ((left + right) / 2) kp0).time < tick := by linarith
        by_cases hm0 : (left + right) / 2 = 0
        · exact ⟨some ((left + right) / 2), by
            simp only [fvLoop, if_pos hlr, if_neg habs, if_neg hnlt, if_pos hm0]⟩
        · obtain ⟨e2, he2⟩ := ih left ((left + right) / 2 - 1) (some ((left + right) / 2))
            (by omega)
          exact ⟨e2, by
            simp only [fvLoop, if_pos hlr, if_neg habs, if_neg hnlt, if_neg hm0, he2]⟩
      · exact ⟨ev2, by simp [fvLoop, hlr]⟩

/-- C8: `find_value` degrades gracefully at its lower boundary: empty
list → 0; singleton → its value iff the query is at or past its tick,
else 0; and for a sorted multi-element list a query strictly before (and
not within machine epsilon of) the first tick returns 0. -/
theorem claim8_find_value_lower_boundary :
    (∀ tick : ℚ, find_value tick [] = 0) ∧
    (∀ tick : ℚ, ∀ e : KeyPoint, e.time ≤ tick → find_value tick [e] = (e.value : ℝ)) ∧
    (∀ tick : ℚ, ∀ e : KeyPoint, ¬ e.time ≤ tick → find_value tick [e] = 0) ∧
    (∀ tick : ℚ, ∀ events : List KeyPoint, 2 ≤ events.length →
      List.Pairwise (fun p q : KeyPoint => p.time ≤ q.time) events →
      tick < (events.getD 0 kp0).time →
      ¬ |(events.getD 0 kp0).time - tick| < f64Eps →
      find_value tick events = 0) := by
  refine ⟨fun _ => rfl, fun tick e h => by simp [find_value, h],
    fun tick e h => by simp [find_value, h], ?_⟩
  intro tick events hlen hsorted hlt heps
  have h0time : f64Eps ≤ (events.getD 0 kp0).time - tick := by
    rw [abs_of_pos (by linarith)] at heps
    linarith
  have hyp : ∀ j, j < events.length → f64Eps ≤ (events.getD j kp0).time - tick := by
    intro j hj
    rcases Nat.eq_zero_or_pos j with h0 | hpos
    · subst h0; exact h0time
    · have := pairwise_getD hsorted kp0 hpos hj
      linarith
  match events, hlen with
  | e :: e2 :: rest, _ =>
    have hlastlen : (e :: e2 :: rest).length - 1 < (e :: e2 :: rest).length := by simp
    have hlast := hyp _ hlastlen
    have heps_pos : (0 : ℚ) < f64Eps := by norm_num [f64Eps]
    have hnot : ¬ ((e :: e2 :: rest).getD ((e :: e2 :: rest).length - 1) kp0).time < tick := by
      linarith
    obtain ⟨res2, hres⟩ := fvLoop_stays_none (e :: e2 :: rest) tick hyp
      (e :: e2 :: rest).length 0 ((e :: e2 :: rest).length - 1) none (by simp)
    simp only [find_value, if_neg hnot, hres]

/-- C8 witness: the three boundary arms at concrete inputs. -/
theorem claim8_find_value_lower_boundary_witness :
    find_value 3 [⟨2, 9, 0, 0, none⟩] = ((9 : ℚ) : ℝ) ∧
    find_value 1 [⟨2, 9, 0, 0, none⟩] = 0 ∧
    find_value 1 [⟨2, 9, 0, 0, none⟩, ⟨4, 11, 0, 0, none⟩] = 0 :=
  ⟨claim8_find_value_lower_boundary.2.1 3 ⟨2, 9, 0, 0, none⟩ (by norm_num),
    claim8_find_value_lower_boundary.2.2.1 1 ⟨2, 9, 0, 0, none⟩ (by norm_num),
    claim8_find_value_lower_boundary.2.2.2 1 [⟨2, 9, 0, 0, none⟩, ⟨4, 11, 0, 0, none⟩]
      (by norm_num) (by norm_num [List.pairwise_cons]) (by norm_num [kp0])
      (by norm_num [kp0, f64Eps])⟩

/-! ### C3: the round trip `tick_to_seconds ∘ seconds_to_tick` -/

/-- Joint monotonicity of the two axes of a tempo-shift list (the §3
ordering invariant of the spec). -/
def jointMonotone (shifts : List BpmShift) : Prop :=
  List.Chain' (fun p q : BpmShift => p.time < q.time ∧ p.floorPosition < q.floorPosition) shifts

/-- Consistency of the first shift with the origin-anchored rate: its
`floorPosition` is the wall-clock image of its tick under the
before-the-first-shift branch of the mapper. -/
def firstConsistent : List BpmShift → ℚ → Prop
  | [], _ => True
  | f :: _, b => f.floorPosition = f.time * (60 / (b * f.value))

/-- The scan of `seconds_to_tick` lands strictly past the previous
shift's tick whenever the query is strictly past its seconds. -/
theorem s2tScan_gt (b : ℚ) (hb : 0 < b) (s : ℚ) :
    ∀ (rest : List BpmShift) (prev : BpmShift), 0 < prev.value →
      (∀ x ∈ rest, 0 < x.value) →
      List.Chain'
        (fun p q : BpmShift => p.time < q.time ∧ p.floorPosition < q.floorPosition)
        (prev :: rest) →
      prev.floorPosition < s → prev.time < s2tScan s b prev rest := by
  intro rest
  induction rest with
  | nil =>
      intro prev hpv _ _ hs
      have hrate : (0 : ℚ) < 60 / (b * prev.value) := by positivity
      have : 0 < (s - prev.floorPosition) / (60 / (b * prev.value)) :=
        div_pos (by linarith) hrate
      simp only [s2tScan]
      linarith
  | cons curr r ih =>
      intro prev hpv hrv hchain hs
      obtain ⟨⟨htlt, hflt⟩, hchain2⟩ := List.chain'_cons.mp hchain
      by_cases hcase : s ≤ curr.floorPosition
      · have hratio : 0 < (s - prev.floorPosition) / (curr.floorPosition - prev.floorPosition) := by
          apply div_pos <;> linarith
        have : 0 < ((s - prev.floorPosition) / (curr.floorPosition - prev.floorPosition)) *
            (curr.time - prev.time) := by
          apply mul_pos hratio
          linarith
        simp only [s2tScan, if_pos hcase]
        linarith
      · have hcv : 0 < curr.value := hrv curr (by simp)
        have hrv2 : ∀ x ∈ r, 0 < x.value := fun x hx => hrv x (by simp [hx])
        have := ih curr hcv hrv2 hchain2 (by linarith [not_le.mp hcase])
        simp only [s2tScan, if_neg hcase]
        linarith

/-- Paired-scan round trip: past the previous shift's seconds, applying
the `tick_to_seconds` scan to the result of the `seconds_to_tick` scan
recovers the query exactly. -/
theorem t2sScan_s2tScan (b : ℚ) (hb : 0 < b) (s : ℚ) :
    ∀ (rest : List BpmShift) (prev : BpmShift), 0 < prev.value →
      (∀ x ∈ rest, 0 < x.value) →
      List.Chain'
        (fun p q : BpmShift => p.time < q.time ∧ p.floorPosition < q.floorPosition)
        (prev :: rest) →
      prev.floorPosition < s →
      t2sScan (s2tScan s b prev rest) b prev rest = s := by
  intro rest
  induction rest with
  | nil =>
      intro prev hpv _ _ hs
      have hrate : (0 : ℚ) < 60 / (b * prev.value) := by positivity
      simp only [s2tScan, t2sScan]
      field_simp
      ring
  | cons curr r ih =>
      intro prev hpv hrv hchain hs
      obtain ⟨⟨htlt, hflt⟩, hchain2⟩ := List.chain'_cons.mp hchain
      by_cases hcase : s ≤ curr.floorPosition
      · have hdt : (0 : ℚ) < curr.time - prev.time := by linarith
        have hdf : (0 : ℚ) < curr.floorPosition - prev.floorPosition := by linarith
        have hratio1 : (s - prev.floorPosition) / (curr.floorPosition - prev.floorPosition) ≤ 1 := by
          rw [div_le_one hdf]
          linarith
        have htickle : prev.time +
            ((s - prev.floorPosition) / (curr.floorPosition - prev.floorPosition)) *
              (curr.time - prev.time) ≤ curr.time := by
          nlinarith
        simp only [s2tScan, if_pos hcase, t2sScan, if_pos htickle]
        field_simp
        ring
      · have hcv : 0 < curr.value := hrv curr (by simp)
        have hrv2 : ∀ x ∈ r, 0 < x.value := fun x hx => hrv x (by simp [hx])
        have hcs : curr.floorPosition < s := by linarith [not_le.mp hcase]
        have hgt := s2tScan_gt b hb s r curr hcv hrv2 hchain2 hcs
        have hnle : ¬ s2tScan s b curr r ≤ curr.time := by linarith
        simp only [s2tScan, if_neg hcase, t2sScan, if_neg hnle]
        exact ih curr hcv hrv2 hchain2 hcs

/-- C3 counterexample: a one-element shift list that satisfies the joint
monotonicity ordering invariant (and has a positive tempo), yet whose
`floorSeconds` is inconsistent with its tick, makes the round trip miss
by 10 seconds at `s = 5`. -/
theorem claim3_roundtrip_counterexample :
    jointMonotone [(⟨0, 1, 0, 10⟩ : BpmShift)] ∧
    (0 : ℚ) < 60 ∧ (∀ x ∈ [(⟨0, 1, 0, 10⟩ : BpmShift)], (0 : ℚ) < x.value) ∧
    tick_to_seconds (seconds_to_tick 5 [(⟨0, 1, 0, 10⟩ : BpmShift)] 60)
      [(⟨0, 1, 0, 10⟩ : BpmShift)] 60 = 15 ∧
    ¬ |tick_to_seconds (seconds_to_tick 5 [(⟨0, 1, 0, 10⟩ : BpmShift)] 60)
        [(⟨0, 1, 0, 10⟩ : BpmShift)] 60 - 5| ≤ 1 / 1000000 := by
  refine ⟨by simp [jointMonotone], by norm_num, by norm_num, ?_, ?_⟩ <;>
    norm_num [seconds_to_tick, tick_to_seconds, s2tScan, t2sScan]

/-- C3 (amended): with the ordering invariant strengthened by positive
tempo values and a first shift whose `floorSeconds` agrees with its tick
under the base rate, the round trip is exact — in particular within the
claimed 1e-6. -/
theorem claim3_roundtrip (shifts : List BpmShift) (b : ℚ) (s : ℚ)
    (hne : shifts ≠ []) (hmono : jointMonotone shifts)
    (hb : 0 < b) (hv : ∀ x ∈ shifts, 0 < x.value)
    (hfirst : firstConsistent shifts b) :
    |tick_to_seconds (seconds_to_tick s shifts b) shifts b - s| ≤ 1 / 1000000 := by
  have hexact : tick_to_seconds (seconds_to_tick s shifts b) shifts b = s := by
    match shifts, hne with
    | f :: rest, _ =>
      have hfv : 0 < f.value := hv f (by simp)
      have hrate : (0 : ℚ) < 60 / (b * f.value) := by positivity
      have hfc : f.floorPosition = f.time * (60 / (b * f.value)) := hfirst
      by_cases hs : s ≤ f.floorPosition
      · have htick : s / (60 / (b * f.value)) ≤ f.time := by
          rw [div_le_iff₀ hrate]
          rw [hfc] at hs
          linarith
        simp only [seconds_to_tick, if_pos hs, tick_to_seconds, if_pos htick]
        field_simp
      · have hs2 : f.floorPosition < s := not_le.mp hs
        have hrv : ∀ x ∈ rest, 0 < x.value := fun x hx => hv x (by simp [hx])
        have hgt := s2tScan_gt b hb s rest f hfv hrv hmono hs2
        have hnle : ¬ s2tScan s b f rest ≤ f.time := by linarith
        simp only [seconds_to_tick, if_neg hs, tick_to_seconds, if_neg hnle]
        exact t2sScan_s2tScan b hb s rest f hfv hrv hmono hs2
  rw [hexact]
  norm_num

/-- C3 witness: the spec's own single-shift scenario at 120 BPM, queried
beyond the shift range. -/
theorem claim3_roundtrip_witness :
    |tick_to_seconds (seconds_to_tick 5 [(⟨0, 1, 0, 0⟩ : BpmShift)] 120)
        [(⟨0, 1, 0, 0⟩ : BpmShift)] 120 - 5| ≤ 1 / 1000000 :=
  claim3_roundtrip [(⟨0, 1, 0, 0⟩ : BpmShift)] 120 5 (by simp)
    (by simp [jointMonotone]) (by norm_num) (by norm_num)
    (by norm_num [firstConsistent])

/-! ### C10: range and endpoint behaviour of the 19 easing curves -/

theorem clamp01_nonneg (t : ℝ) : 0 ≤ clamp01 t :=
  le_min (le_max_right t 0) zero_le_one

theorem clamp01_le_one (t : ℝ) : clamp01 t ≤ 1 := min_le_right _ _

set_option maxHeartbeats 2000000 in
/-- C10: every easing curve maps `clamp(t,0,1)` into `[0,1]` and fixes
the endpoints (`curve 0 = 0`, `curve 1 = 1`), except the two constant
curves, which are identically 0 (index 13) and identically 1 (index 14). -/
theorem claim10_easing_curves :
    (∀ i : ℕ, i ≤ 18 → i ≠ 13 → i ≠ 14 →
      (∀ t : ℝ, get_ease_func i (clamp01 t) ∈ Set.Icc (0 : ℝ) 1) ∧
      get_ease_func i 0 = 0 ∧ get_ease_func i 1 = 1) ∧
    (∀ t : ℝ, get_ease_func 13 t = 0) ∧
    (∀ t : ℝ, get_ease_func 14 t = 1) := by
  refine ⟨?_, fun t => rfl, fun t => rfl⟩
  intro i hle h13 h14
  have hmem : ∀ t : ℝ, 0 ≤ clamp01 t ∧ clamp01 t ≤ 1 :=
    fun t => ⟨clamp01_nonneg t, clamp01_le_one t⟩
  interval_cases i
  · -- 0: linear
    exact ⟨fun t => ⟨(hmem t).1, (hmem t).2⟩, rfl, rfl⟩
  · -- 1: ease_in_quad
    refine ⟨fun t => ?_, by norm_num [get_ease_func, ease_in_quad],
      by norm_num [get_ease_func, ease_in_quad]⟩
    obtain ⟨h0, h1⟩ := hmem t
    set x := clamp01 t
    simp only [get_ease_func, ease_in_quad, Set.mem_Icc]
    constructor <;> nlinarith
  · -- 2: ease_out_quad
    refine ⟨fun t => ?_, by norm_num [get_ease_func, ease_out_quad],
      by norm_num [get_ease_func, ease_out_quad]⟩
    obtain ⟨h0, h1⟩ := hmem t
    set x := clamp01 t
    simp only [get_ease_func, ease_out_quad, Set.mem_Icc]
    constructor <;> nlinarith
  · -- 3: ease_in_out_quad
    refine ⟨fun t => ?_, by norm_num [get_ease_func, ease_in_out_quad],
      by norm_num [get_ease_func, ease_in_out_quad]⟩
    obtain ⟨h0, h1⟩ := hmem t
    set x := clamp01 t
    simp only [get_ease_func, ease_in_out_quad, Set.mem_Icc]
    split_ifs with h
    · rw [show (0.5 : ℝ) = 1 / 2 by norm_num] at h
      constructor <;> nlinarith
    · push_neg at h
      rw [show (0.5 : ℝ) = 1 / 2 by norm_num] at h
      have hy0 : (0 : ℝ) ≤ -2 * x + 2 := by linarith
      have hy1 : -2 * x + 2 ≤ 1 := by linarith
      have hp0 : (0 : ℝ) ≤ (-2 * x + 2) ^ (2 : ℕ) := pow_nonneg hy0 _
      have hp1 : (-2 * x + 2) ^ (2 : ℕ) ≤ 1 := pow_le_one₀ hy0 hy1
      constructor <;> nlinarith
  · -- 4: ease_in_cubic
    refine ⟨fun t => ?_, by norm_num [get_ease_func, ease_in_cubic],
      by norm_num [get_ease_func, ease_in_cubic]⟩
    obtain ⟨h0, h1⟩ := hmem t
    set x := clamp01 t
    simp only [get_ease_func, ease_in_cubic, Set.mem_Icc]
    have h2 : x * x ≤ 1 := by nlinarith
    constructor
    · positivity
    · nlinarith
  · -- 5: ease_out_cubic
    refine ⟨fun t => ?_, by norm_num [get_ease_func, ease_out_cubic],
      by norm_num [get_ease_func, ease_out_cubic]⟩
    obtain ⟨h0, h1⟩ := hmem t
    set x := clamp01 t
    simp only [get_ease_func, ease_out_cubic, Set.mem_Icc]
    have hy0 : (0 : ℝ) ≤ 1 - x := by linarith
    have hy1 : 1 - x ≤ 1 := by linarith
    have hp0 : (0 : ℝ) ≤ (1 - x) ^ (3 : ℕ) := pow_nonneg hy0 _
    have hp1 : (1 - x) ^ (3 : ℕ) ≤ 1 := pow_le_one₀ hy0 hy1
    constructor <;> linarith
  · -- 6: ease_in_out_cubic
    refine ⟨fun t => ?_, by norm_num [get_ease_func, ease_in_out_cubic],
      by norm_num [get_ease_func, ease_in_out_cubic]⟩
    obtain ⟨h0, h1⟩ := hmem t
    set x := clamp01 t
    simp only [get_ease_func, ease_in_out_cubic, Set.mem_Icc]
    split_ifs with h
    · rw [show (0.5 : ℝ) = 1 / 2 by norm_num] at h
      have hlt : x ≤ 1 / 2 := le_of_lt h
      have h2 : x * x ≤ 1 / 4 := by nlinarith
      constructor
      · positivity
      · nlinarith
    · push_neg at h
      rw [show (0.5 : ℝ) = 1 / 2 by norm_num] at h
      have hy0 : (0 : ℝ) ≤ -2 * x + 2 := by linarith
      have hy1 : -2 * x + 2 ≤ 1 := by linarith
      have hp0 : (0 : ℝ) ≤ (-2 * x + 2) ^ (3 : ℕ) := pow_nonneg hy0 _
      have hp1 : (-2 * x + 2) ^ (3 : ℕ) ≤ 1 := pow_le_one₀ hy0 hy1
      constructor <;> nlinarith
  · -- 7: ease_in_quart
    refine ⟨fun t => ?_, by norm_num [get_ease_func, ease_in_quart],
      by norm_num [get_ease_func, ease_in_quart]⟩
    obtain ⟨h0, h1⟩ := hmem t
    set x := clamp01 t
    simp only [get_ease_func, ease_in_quart, Set.mem_Icc]
    have h2 : x * x ≤ 1 := by nlinarith
    have h3 : x * x * x ≤ 1 := by nlinarith
    constructor
    · positivity
    · nlinarith
  · -- 8: ease_out_quart
    refine ⟨fun t => ?_, by norm_num [get_ease_func, ease_out_quart],
      by norm_num [get_ease_func, ease_out_quart]⟩
    obtain ⟨h0, h1⟩ := hmem t
    set x := clamp01 t
    simp only [get_ease_func, ease_out_quart, Set.mem_Icc]
    have hy0 : (0 : ℝ) ≤ 1 - x := by linarith
    have hy1 : 1 - x ≤ 1 := by linarith
    have hp0 : (0 : ℝ) ≤ (1 - x) ^ (4 : ℕ) := pow_nonneg hy0 _
    have hp1 : (1 - x) ^ (4 : ℕ) ≤ 1 := pow_le_one₀ hy0 hy1
    constructor <;> linarith
  · -- 9: ease_in_out_quart
    refine ⟨fun t => ?_, by norm_num [get_ease_func, ease_in_out_quart],
      by norm_num [get_ease_func, ease_in_out_quart]⟩
    obtain ⟨h0, h1⟩ := hmem t
    set x := clamp01 t
    simp only [get_ease_func, ease_in_out_quart, Set.mem_Icc]
    split_ifs with h
    · rw [show (0.5 : ℝ) = 1 / 2 by norm_num] at h
      have hlt : x ≤ 1 / 2 := le_of_lt h
      have h2 : x * x ≤ 1 / 4 := by nlinarith
      have h3 : x * x * x ≤ 1 / 8 := by nlinarith
      constructor
      · positivity
      · nlinarith
    · push_neg at h
      rw [show (0.5 : ℝ) = 1 / 2 by norm_num] at h
      have hy0 : (0 : ℝ) ≤ -2 * x + 2 := by linarith
      have hy1 : -2 * x + 2 ≤ 1 := by linarith
      have hp0 : (0 : ℝ) ≤ (-2 * x + 2) ^ (4 : ℕ) := pow_nonneg hy0 _
      have hp1 : (-2 * x + 2) ^ (4 : ℕ) ≤ 1 := pow_le_one₀ hy0 hy1
      constructor <;> nlinarith
  · -- 10: ease_in_quint
    refine ⟨fun t => ?_, by norm_num [get_ease_func, ease_in_quint],
      by norm_num [get_ease_func, ease_in_quint]⟩
    obtain ⟨h0, h1⟩ := hmem t
    set x := clamp01 t
    simp only [get_ease_func, ease_in_quint, Set.mem_Icc]
    have h2 : x * x ≤ 1 := by nlinarith
    have h3 : x * x * x ≤ 1 := by nlinarith
    have h4 : x * x * x * x ≤ 1 := by nlinarith
    constructor
    · positivity
    · nlinarith
  · -- 11: ease_out_quint
    refine ⟨fun t => ?_, by norm_num [get_ease_func, ease_out_quint],
      by norm_num [get_ease_func, ease_out_quint]⟩
    obtain ⟨h0, h1⟩ := hmem t
    set x := clamp01 t
    simp only [get_ease_func, ease_out_quint, Set.mem_Icc]
    have hy0 : (0 : ℝ) ≤ 1 - x := by linarith
    have hy1 : 1 - x ≤ 1 := by linarith
    have hp0 : (0 : ℝ) ≤ (1 - x) ^ (5 : ℕ) := pow_nonneg hy0 _
    have hp1 : (1 - x) ^ (5 : ℕ) ≤ 1 := pow_le_one₀ hy0 hy1
    constructor <;> linarith
  · -- 12: ease_in_out_quint
    refine ⟨fun t => ?_, by norm_num [get_ease_func, ease_in_out_quint],
      by norm_num [get_ease_func, ease_in_out_quint]⟩
    obtain ⟨h0, h1⟩ := hmem t
    set x := clamp01 t
    simp only [get_ease_func, ease_in_out_quint, Set.mem_Icc]
    split_ifs with h
    · rw [show (0.5 : ℝ) = 1 / 2 by norm_num] at h
      have hlt : x ≤ 1 / 2 := le_of_lt h
      have h2 : x * x ≤ 1 / 4 := by nlinarith
      have h3 : x * x * x ≤ 1 / 8 := by nlinarith
      have h4 : x * x * x * x ≤ 1 / 16 := by nlinarith
      constructor
      · positivity
      · nlinarith
    · push_neg at h
      rw [show (0.5 : ℝ) = 1 / 2 by norm_num] at h
      have hy0 : (0 : ℝ) ≤ -2 * x + 2 := by linarith
      have hy1 : -2 * x + 2 ≤ 1 := by linarith
      have hp0 : (0 : ℝ) ≤ (-2 * x + 2) ^ (5 : ℕ) := pow_nonneg hy0 _
      have hp1 : (-2 * x + 2) ^ (5 : ℕ) ≤ 1 := pow_le_one₀ hy0 hy1
      constructor <;> nlinarith
  · -- 13: ease_zero (excluded)
    exact absurd rfl h13
  · -- 14: ease_one (excluded)
    exact absurd rfl h14
  · -- 15: ease_in_circ
    refine ⟨fun t => ?_, ?_, ?_⟩
    · obtain ⟨h0, h1⟩ := hmem t
      set x := clamp01 t
      simp only [get_ease_func, ease_in_circ, Set.mem_Icc]
      have hs0 : 0 ≤ Real.sqrt (1 - x * x) := Real.sqrt_nonneg _
      have hs1 : Real.sqrt (1 - x * x) ≤ 1 := by
        have := Real.sqrt_le_sqrt (show 1 - x * x ≤ 1 by nlinarith)
        rwa [Real.sqrt_one] at this
      constructor <;> linarith
    · show 1 - Real.sqrt (1 - 0 * 0) = 0
      norm_num [Real.sqrt_one]
    · show 1 - Real.sqrt (1 - 1 * 1) = 1
      norm_num [Real.sqrt_zero]
  · -- 16: ease_out_circ
    refine ⟨fun t => ?_, ?_, ?_⟩
    · obtain ⟨h0, h1⟩ := hmem t
      set x := clamp01 t
      simp only [get_ease_func, ease_out_circ, Set.mem_Icc]
      have hs0 : 0 ≤ Real.sqrt (1 - (x - 1) ^ (2 : ℕ)) := Real.sqrt_nonneg _
      have hs1 : Real.sqrt (1 - (x - 1) ^ (2 : ℕ)) ≤ 1 := by
        have := Real.sqrt_le_sqrt (show 1 - (x - 1) ^ (2 : ℕ) ≤ 1 by nlinarith [sq_nonneg (x - 1)])
        rwa [Real.sqrt_one] at this
      exact ⟨hs0, hs1⟩
    · show Real.sqrt (1 - ((0 : ℝ) - 1) ^ (2 : ℕ)) = 0
      norm_num [Real.sqrt_zero]
    · show Real.sqrt (1 - ((1 : ℝ) - 1) ^ (2 : ℕ)) = 1
      norm_num [Real.sqrt_one]
  · -- 17: ease_out_sine
    refine ⟨fun t => ?_, ?_, ?_⟩
    · obtain ⟨h0, h1⟩ := hmem t
      set x := clamp01 t
      simp only [get_ease_func, ease_out_sine, Set.mem_Icc]
      have hpi := Real.pi_pos
      constructor
      · exact Real.sin_nonneg_of_nonneg_of_le_pi (by positivity) (by nlinarith)
      · exact Real.sin_le_one _
    · show Real.sin ((0 : ℝ) * Real.pi / 2) = 0
      norm_num [Real.sin_zero]
    · show Real.sin ((1 : ℝ) * Real.pi / 2) = 1
      norm_num [Real.sin_pi_div_two]
  · -- 18: ease_in_sine
    refine ⟨fun t => ?_, ?_, ?_⟩
    · obtain ⟨h0, h1⟩ := hmem t
      set x := clamp01 t
      simp only [get_ease_func, ease_in_sine, Set.mem_Icc]
      have hpi := Real.pi_pos
      have hc1 : Real.cos (x * Real.pi / 2) ≤ 1 := Real.cos_le_one _
      have hc0 : 0 ≤ Real.cos (x * Real.pi / 2) :=
        Real.cos_nonneg_of_mem_Icc ⟨by nlinarith, by nlinarith⟩
      constructor <;> linarith
    · show 1 - Real.cos ((0 : ℝ) * Real.pi / 2) = 0
      norm_num [Real.cos_zero]
    · show 1 - Real.cos ((1 : ℝ) * Real.pi / 2) = 1
      norm_num [Real.cos_pi_div_two]

/-- C10 witness: the quadratic ease-in at a mid and at both endpoints. -/
theorem claim10_easing_curves_witness :
    get_ease_func 1 (clamp01 (1 / 2 : ℝ)) ∈ Set.Icc (0 : ℝ) 1 ∧
    get_ease_func 1 (0 : ℝ) = 0 ∧ get_ease_func 1 (1 : ℝ) = 1 := by
  have h := claim10_easing_curves.1 1 (by norm_num) (by norm_num) (by norm_num)
  exact ⟨h.1 (1 / 2 : ℝ), h.2.1, h.2.2⟩

/-! ### C4: interior behaviour of `find_value` -/

theorem f64Eps_pos : (0 : ℚ) < f64Eps := by norm_num [f64Eps]

/-- Exit analysis of the `find_value` search: when the window has closed
(`left = right + 1`) under the loop invariants, the carried candidates
are exactly the bracketing pair `(i, i + 1)`. -/
theorem fvLoop_exit_pair (events : List KeyPoint) (tick : ℚ) (i : ℕ)
    (hi : i + 1 < events.length)
    (hlow : (events.getD i kp0).time < tick)
    (hhigh : tick < (events.getD (i + 1) kp0).time)
    (left right : ℕ) (ev1 ev2 : Option ℕ)
    (hleft : left = right + 1)
    (hA1 : ∀ j, j < left → (events.getD j kp0).time < tick)
    (hA2 : ∀ j, right < j → j < events.length → tick < (events.getD j kp0).time)
    (hE1 : (ev1 = none ∧ left = 0) ∨ (ev1 = some (left - 1) ∧ 1 ≤ left))
    (hE2 : (ev2 = none ∧ right = events.length - 1) ∨
      (ev2 = some (right + 1) ∧ right + 1 < events.length)) :
    ev1 = some i ∧ ev2 = some (i + 1) := by
  rcases hE1 with ⟨-, h0⟩ | ⟨he1, hge1⟩
  · omega
  · rcases hE2 with ⟨-, hrn⟩ | ⟨he2, hlt2⟩
    · exfalso
      have : (events.getD (i + 1) kp0).time < tick := hA1 (i + 1) (by omega)
      linarith
    · have hile : left - 1 ≤ i := by
        by_contra hc
        push_neg at hc
        have := hA1 (i + 1) (by omega)
        linarith
      have hige : i ≤ right := by
        by_contra hc
        push_neg at hc
        have := hA2 i (by omega) (by omega)
        linarith
      have hieq : i = left - 1 := by omega
      constructor
      · rw [he1, hieq]
      · rw [he2]
        congr 1
        omega

/-- Main loop invariant of the `find_value` search in the interior case:
with no keyframe within machine epsilon of the query and a strict
bracketing pair `(i, i + 1)`, the loop returns exactly that pair. -/
theorem fvLoop_bracket (events : List KeyPoint) (tick : ℚ) (i : ℕ)
    (hsorted : List.Pairwise (fun p q : KeyPoint => p.time ≤ q.time) events)
    (hi : i + 1 < events.length)
    (hlow : (events.getD i kp0).time < tick)
    (hhigh : tick < (events.getD (i + 1) kp0).time)
    (hsep : ∀ j, j < events.length → f64Eps ≤ |(events.getD j kp0).time - tick|) :
    ∀ (fuel left right : ℕ) (ev1 ev2 : Option ℕ),
      right + 1 - left ≤ fuel →
      left ≤ right + 1 →
      right < events.length →
      (∀ j, j < left → (events.getD j kp0).time < tick) →
      (∀ j, right < j → j < events.length → tick < (events.getD j kp0).time) →
      ((ev1 = none ∧ left = 0) ∨ (ev1 = some (left - 1) ∧ 1 ≤ left)) →
      ((ev2 = none ∧ right = events.length - 1) ∨
        (ev2 = some (right + 1) ∧ right + 1 < events.length)) →
      fvLoop events tick fuel left right ev1 ev2 = Sum.inr (some i, some (i + 1)) := by
  intro fuel
  induction fuel with
  | zero =>
      intro left right ev1 ev2 hfuel hlr hrn hA1 hA2 hE1 hE2
      have hleft : left = right + 1 := by omega
      obtain ⟨h1, h2⟩ := fvLoop_exit_pair events tick i hi hlow hhigh
        left right ev1 ev2 hleft hA1 hA2 hE1 hE2
      simp [fvLoop, h1, h2]
  | succ fuel ih =>
      intro left right ev1 ev2 hfuel hlr hrn hA1 hA2 hE1 hE2
      by_cases hlr2 : left ≤ right
      · have hmidl : left ≤ (left + right) / 2 := by omega
        have hmidr : (left + right) / 2 ≤ right := by omega
        have hmidn : (left + right) / 2 < events.length := by omega
        have habs : ¬ |(events.getD ((left + right) / 2) kp0).time - tick| < f64Eps :=
          not_lt.mpr (hsep _ hmidn)
        by_cases hcmp : (events.getD ((left + right) / 2) kp0).time < tick
        · simp only [fvLoop, if_pos hlr2, if_neg habs, if_pos hcmp]
          apply ih ((left + right) / 2 + 1) right (some ((left + right) / 2)) ev2
          · omega
          · omega
          · exact hrn
          · intro j hj
            rcases Nat.lt_or_ge j ((left + right) / 2) with hj2 | hj2
            · exact lt_of_le_of_lt (pairwise_getD hsorted kp0 hj2 hmidn) hcmp
            · have : j = (left + right) / 2 := by omega
              rw [this]
              exact hcmp
          · exact hA2
          · right
            exact ⟨by rw [Nat.add_sub_cancel], by omega⟩
          · exact hE2
        · have hne : (events.getD ((left + right) / 2) kp0).time ≠ tick := by
            intro he
            rw [he] at habs
            simp at habs
            linarith [f64Eps_pos]
          have hgt : tick < (events.getD ((left + right) / 2) kp0).time :=
            lt_of_le_of_ne (not_lt.mp hcmp) (Ne.symm hne)
          by_cases hm0 : (left + right) / 2 = 0
          · exfalso
            have h0i : (events.getD 0 kp0).time ≤ (events.getD i kp0).time := by
              rcases Nat.eq_zero_or_pos i with h | h
              · rw [h]
              · exact pairwise_getD hsorted kp0 h (by omega)
            rw [hm0] at hgt
            linarith
          · simp only [fvLoop, if_pos hlr2, if_neg habs, if_neg hcmp, if_neg hm0]
            apply ih left ((left + right) / 2 - 1) ev1 (some ((left + right) / 2))
            · omega
            · omega
            · omega
            · exact hA1
            · intro j hj hjn
              rcases Nat.lt_or_ge ((left + right) / 2) j with hj2 | hj2
              · exact lt_of_lt_of_le hgt (pairwise_getD hsorted kp0 hj2 hjn)
              · have : j = (left + right) / 2 := by omega
                rw [this]
                exact hgt
            · exact hE1
            · right
              exact ⟨by congr 1; omega, by omega⟩
      · have hleft : left = right + 1 := by omega
        obtain ⟨h1, h2⟩ := fvLoop_exit_pair events tick i hi hlow hhigh
          left right ev1 ev2 hleft hA1 hA2 hE1 hE2
        simp [fvLoop, hlr2, h1, h2]

/-- Loop invariant of the `find_value` search in the epsilon-hit case:
if exactly one keyframe is within machine epsilon of the query and it
lies inside the window, the loop returns its value. -/
theorem fvLoop_hits (events : List KeyPoint) (tick : ℚ) (j : ℕ)
    (hsorted : List.Pairwise (fun p q : KeyPoint => p.time ≤ q.time) events)
    (hj : j < events.length)
    (hhit : |(events.getD j kp0).time - tick| < f64Eps)
    (hsep : ∀ k, k < events.length → k ≠ j → f64Eps ≤ |(events.getD k kp0).time - tick|) :
    ∀ (fuel left right : ℕ) (ev1 ev2 : Option ℕ),
      right + 1 - left ≤ fuel →
      right < events.length →
      left ≤ j → j ≤ right →
      fvLoop events tick fuel left right ev1 ev2 =
        Sum.inl ((events.getD j kp0).value) := by
  intro fuel
  induction fuel with
  | zero =>
      intro left right ev1 ev2 hfuel hrn hlj hjr
      omega
  | succ fuel ih =>
      intro left right ev1 ev2 hfuel hrn hlj hjr
      have hlr2 : left ≤ right := le_trans hlj hjr
      have hmidl : left ≤ (left + right) / 2 := by omega
      have hmidr : (left + right) / 2 ≤ right := by omega
      have hmidn : (left + right) / 2 < events.length := by omega
      by_cases hmj : (left + right) / 2 = j
      · simp only [fvLoop, if_pos hlr2, hmj, if_pos hhit]
      · have hmsep := hsep _ hmidn hmj
        have habs : ¬ |(events.getD ((left + right) / 2) kp0).time - tick| < f64Eps :=
          not_lt.mpr hmsep
        by_cases hcmp : (events.getD ((left + right) / 2) kp0).time < tick
        · have hjgt : (left + right) / 2 < j := by
            by_contra hc
            push_neg at hc
            have hjlt : j < (left + right) / 2 := by omega
            have hle := pairwise_getD hsorted kp0 hjlt hmidn
            have h1 : f64Eps ≤ tick - (events.getD ((left + right) / 2) kp0).time := by
              rw [abs_of_neg (by linarith)] at hmsep
              linarith
            have h2 : tick - (events.getD j kp0).time ≤ |(events.getD j kp0).time - tick| := by
              rw [abs_sub_comm]
              exact le_abs_self _
            linarith
          simp only [fvLoop, if_pos hlr2, if_neg habs, if_pos hcmp]
          exact ih ((left + right) / 2 + 1) right (some ((left + right) / 2)) ev2
            (by omega) hrn (by omega) hjr
        · have hne : (events.getD ((left + right) / 2) kp0).time ≠ tick := by
            intro he
            rw [he] at habs
            simp at habs
            linarith [f64Eps_pos]
          have hgt : tick < (events.getD ((left + right) / 2) kp0).time :=
            lt_of_le_of_ne (not_lt.mp hcmp) (Ne.symm hne)
          have hjlt : j < (left + right) / 2 := by
            by_contra hc
            push_neg at hc
            have hjgt2 : (left + right) / 2 < j := by omega
            have hle := pairwise_getD hsorted kp0 hjgt2 hj
            have h1 : f64Eps ≤ (events.getD ((left + right) / 2) kp0).time - tick := by
              rw [abs_of_pos (by linarith)] at hmsep
              linarith
            have h2 : (events.getD j kp0).time - tick ≤ |(events.getD j kp0).time - tick| :=
              le_abs_self _
            linarith
          have hm0 : (left + right) / 2 ≠ 0 := by omega
          simp only [fvLoop, if_pos hlr2, if_neg habs, if_neg hcmp, if_neg hm0]
          exact ih left ((left + right) / 2 - 1) ev1 (some ((left + right) / 2))
            (by omega) (by omega) hlj (by omega)

/-- C4: for an ordered multi-element keyframe list and a query strictly
between consecutive keyframes (and at least machine epsilon away from
both), `find_value` blends from the LEFT keyframe using the left
keyframe's easing curve; and a query within machine epsilon of a (unique
such) keyframe's tick returns that keyframe's value directly. -/
theorem claim4_find_value_bracketing :
    (∀ (events : List KeyPoint) (tick : ℚ) (i : ℕ),
      List.Pairwise (fun p q : KeyPoint => p.time ≤ q.time) events →
      i + 1 < events.length →
      (events.getD i kp0).time < tick →
      tick < (events.getD (i + 1) kp0).time →
      ¬ |(events.getD i kp0).time - tick| < f64Eps →
      ¬ |(events.getD (i + 1) kp0).time - tick| < f64Eps →
      find_value tick events =
        ((events.getD i kp0).value : ℝ) +
          (((events.getD (i + 1) kp0).value : ℝ) - ((events.getD i kp0).value : ℝ)) *
            apply_ease (events.getD i kp0).easeType
              ((((tick - (events.getD i kp0).time) /
                ((events.getD (i + 1) kp0).time - (events.getD i kp0).time)) : ℚ) : ℝ)) ∧
    (∀ (events : List KeyPoint) (tick : ℚ) (j : ℕ),
      2 ≤ events.length →
      List.Pairwise (fun p q : KeyPoint => p.time ≤ q.time) events →
      j < events.length →
      |(events.getD j kp0).time - tick| < f64Eps →
      (∀ k, k < events.length → k ≠ j → f64Eps ≤ |(events.getD k kp0).time - tick|) →
      find_value tick events = ((events.getD j kp0).value : ℝ)) := by
  constructor
  · intro events tick i hsorted hi hlow hhigh hepsA hepsB
    have hepsA2 : f64Eps ≤ tick - (events.getD i kp0).time := by
      have := not_lt.mp hepsA
      rw [abs_of_neg (by linarith)] at this
      linarith
    have hepsB2 : f64Eps ≤ (events.getD (i + 1) kp0).time - tick := by
      have := not_lt.mp hepsB
      rw [abs_of_pos (by linarith)] at this
      linarith
    have hsep : ∀ j, j < events.length → f64Eps ≤ |(events.getD j kp0).time - tick| := by
      intro j hj
      rcases le_or_lt j i with hji | hji
      · have hsj : (events.getD j kp0).time ≤ (events.getD i kp0).time := by
          rcases eq_or_lt_of_le hji with he | hl
          · rw [he]
          · exact pairwise_getD hsorted kp0 hl (by omega)
        rw [abs_of_neg (by linarith)]
        linarith
      · have hsj : (events.getD (i + 1) kp0).time ≤ (events.getD j kp0).time := by
          have hor : i + 1 = j ∨ i + 1 < j := by omega
          rcases hor with he | hl
          · rw [he]
          · exact pairwise_getD hsorted kp0 hl hj
        rw [abs_of_pos (by linarith)]
        linarith
    match events, hsorted, hi, hlow, hhigh, hsep with
    | e :: e2 :: rest, hsorted, hi, hlow, hhigh, hsep =>
      have hi1n : i + 1 ≤ (e :: e2 :: rest).length - 1 := by
        simp only [List.length_cons] at hi ⊢
        omega
      have hlastn : (e :: e2 :: rest).length - 1 < (e :: e2 :: rest).length := by simp
      have hlast : ((e :: e2 :: rest).getD (i + 1) kp0).time ≤
          ((e :: e2 :: rest).getD ((e :: e2 :: rest).length - 1) kp0).time := by
        rcases eq_or_lt_of_le hi1n with he | hl
        · rw [he]
        · exact pairwise_getD hsorted kp0 hl hlastn
      have hnlast : ¬ ((e :: e2 :: rest).getD ((e :: e2 :: rest).length - 1) kp0).time < tick := by
        push_neg
        linarith
      have hloop := fvLoop_bracket (e :: e2 :: rest) tick i hsorted hi hlow hhigh hsep
        (e :: e2 :: rest).length 0 ((e :: e2 :: rest).length - 1) none none
        (by simp only [List.length_cons]; omega)
        (by omega)
        hlastn
        (fun j hj => absurd hj (by omega))
        (fun j h1 h2 => absurd h2 (by omega))
        (Or.inl ⟨rfl, rfl⟩)
        (Or.inl ⟨rfl, rfl⟩)
      simp only [find_value, if_neg hnlast, hloop]
  · intro events tick j hlen hsorted hj hhit hsep
    match events, hlen, hsorted, hj, hhit, hsep with
    | e :: e2 :: rest, hlen, hsorted, hj, hhit, hsep =>
      by_cases hcmp : ((e :: e2 :: rest).getD ((e :: e2 :: rest).length - 1) kp0).time < tick
      · have hjeq : j = (e :: e2 :: rest).length - 1 := by
          by_contra hc
          have hjlt : j < (e :: e2 :: rest).length - 1 := by omega
          have hle := pairwise_getD hsorted kp0 hjlt
            (show (e :: e2 :: rest).length - 1 < (e :: e2 :: rest).length by simp)
          have h1 := hsep ((e :: e2 :: rest).length - 1)
            (by simp) (by omega)
          rw [abs_of_neg (by linarith)] at h1
          have h2 : tick - ((e :: e2 :: rest).getD j kp0).time ≤
              |((e :: e2 :: rest).getD j kp0).time - tick| := by
            rw [abs_sub_comm]
            exact le_abs_self _
          linarith
        rw [hjeq]
        simp only [find_value, if_pos hcmp]
      · have hloop := fvLoop_hits (e :: e2 :: rest) tick j hsorted hj hhit hsep
          (e :: e2 :: rest).length 0 ((e :: e2 :: rest).length - 1) none none
          (by simp only [List.length_cons]; omega)
          (by simp)
          (by omega)
          (by simp only [List.length_cons] at hj ⊢; omega)
        simp only [find_value, if_neg hcmp, hloop]

/-- C4 witness: a linear segment from value 0 at tick 0 to value 10 at
tick 2, queried at tick 1 (midpoint) and exactly at tick 2. -/
theorem claim4_find_value_bracketing_witness :
    find_value 1 [⟨0, 0, 0, 0, none⟩, ⟨2, 10, 0, 0, none⟩] = 5 ∧
    find_value 2 [⟨0, 0, 0, 0, none⟩, ⟨2, 10, 0, 0, none⟩] = 10 := by
  constructor
  · have h := claim4_find_value_bracketing.1 [⟨0, 0, 0, 0, none⟩, ⟨2, 10, 0, 0, none⟩] 1 0
      (by norm_num [List.pairwise_cons]) (by norm_num) (by norm_num [kp0])
      (by norm_num [kp0]) (by norm_num [kp0, f64Eps]) (by norm_num [kp0, f64Eps])
    rw [h]
    norm_num [kp0, apply_ease, get_ease_func, linear, clamp01]
  · have h := claim4_find_value_bracketing.2 [⟨0, 0, 0, 0, none⟩, ⟨2, 10, 0, 0, none⟩] 2 1
      (by norm_num) (by norm_num [List.pairwise_cons]) (by norm_num)
      (by norm_num [kp0, f64Eps]) ?_
    · rw [h]
      norm_num [kp0]
    · intro k hk hkj
      match k, hk, hkj with
      | 0, _, _ => norm_num [kp0, f64Eps]
      | 1, _, hkj => exact absurd rfl hkj

/-! ### C1: monotonicity of `speed_to_fp` -/

/-- Well-formedness of a tempo-shift list (the §3 invariants): both axes
strictly increasing, positive multipliers, and the first breakpoint's
`floorSeconds` consistent with its tick under the base rate. -/
def shiftsWF (shifts : List BpmShift) (b : ℚ) : Prop :=
  jointMonotone shifts ∧ (∀ x ∈ shifts, 0 < x.value) ∧ firstConsistent shifts b

/-- The `tick_to_seconds` scan exceeds the previous shift's seconds for
ticks past the previous shift's tick. -/
theorem t2sScan_gt (b : ℚ) (hb : 0 < b) (tk : ℚ) :
    ∀ (rest : List BpmShift) (prev : BpmShift), 0 < prev.value →
      (∀ x ∈ rest, 0 < x.value) →
      List.Chain'
        (fun p q : BpmShift => p.time < q.time ∧ p.floorPosition < q.floorPosition)
        (prev :: rest) →
      prev.time < tk → prev.floorPosition < t2sScan tk b prev rest := by
  intro rest
  induction rest with
  | nil =>
      intro prev hpv _ _ htk
      have hrate : (0 : ℚ) < 60 / (b * prev.value) := by positivity
      have : 0 < (tk - prev.time) * (60 / (b * prev.value)) := by
        apply mul_pos (by linarith) hrate
      simp only [t2sScan]
      linarith
  | cons curr r ih =>
      intro prev hpv hrv hchain htk
      obtain ⟨⟨htlt, hflt⟩, hchain2⟩ := List.chain'_cons.mp hchain
      by_cases hcase : tk ≤ curr.time
      · have hratio : 0 < (tk - prev.time) / (curr.time - prev.time) := by
          apply div_pos <;> linarith
        have : 0 < ((tk - prev.time) / (curr.time - prev.time)) *
            (curr.floorPosition - prev.floorPosition) := by
          apply mul_pos hratio
          linarith
        simp only [t2sScan, if_pos hcase]
        linarith
      · have hcv : 0 < curr.value := hrv curr (by simp)
        have hrv2 : ∀ x ∈ r, 0 < x.value := fun x hx => hrv x (by simp [hx])
        have := ih curr hcv hrv2 hchain2 (by linarith [not_le.mp hcase])
        simp only [t2sScan, if_neg hcase]
        linarith

/-- The `tick_to_seconds` scan is strictly monotone past the previous
shift's tick. -/
theorem t2sScan_strictMono (b : ℚ) (hb : 0 < b) (x y : ℚ) (hxy : x < y) :
    ∀ (rest : List BpmShift) (prev : BpmShift), 0 < prev.value →
      (∀ x ∈ rest, 0 < x.value) →
      List.Chain'
        (fun p q : BpmShift => p.time < q.time ∧ p.floorPosition < q.floorPosition)
        (prev :: rest) →
      prev.time < x → t2sScan x b prev rest < t2sScan y b prev rest := by
  intro rest
  induction rest with
  | nil =>
      intro prev hpv _ _ hx
      have hrate : (0 : ℚ) < 60 / (b * prev.value) := by positivity
      simp only [t2sScan]
      have : (x - prev.time) * (60 / (b * prev.value)) <
          (y - prev.time) * (60 / (b * prev.value)) := by
        apply mul_lt_mul_of_pos_right (by linarith) hrate
      linarith
  | cons curr r ih =>
      intro prev hpv hrv hchain hx
      obtain ⟨⟨htlt, hflt⟩, hchain2⟩ := List.chain'_cons.mp hchain
      have hcv : 0 < curr.value := hrv curr (by simp)
      have hrv2 : ∀ x ∈ r, 0 < x.value := fun x hx => hrv x (by simp [hx])
      by_cases hy : y ≤ curr.time
      · have hxc : x ≤ curr.time := le_of_lt (lt_of_lt_of_le hxy hy)
        simp only [t2sScan, if_pos hxc, if_pos hy]
        have hdt : (0 : ℚ) < curr.time - prev.time := by linarith
        have hdiv : (x - prev.time) / (curr.time - prev.time) <
            (y - prev.time) / (curr.time - prev.time) := by
          rw [div_lt_div_iff₀ hdt hdt]
          nlinarith
        have h2 : ((x - prev.time) / (curr.time - prev.time)) *
            (curr.floorPosition - prev.floorPosition) <
            ((y - prev.time) / (curr.time - prev.time)) *
            (curr.floorPosition - prev.floorPosition) :=
          mul_lt_mul_of_pos_right hdiv (by linarith)
        linarith
      · by_cases hxc : x ≤ curr.time
        · have hyc : curr.time < y := not_le.mp hy
          have hle : prev.floorPosition +
              ((x - prev.time) / (curr.time - prev.time)) *
                (curr.floorPosition - prev.floorPosition) ≤ curr.floorPosition := by
            have hdt : (0 : ℚ) < curr.time - prev.time := by linarith
            have hratio : (x - prev.time) / (curr.time - prev.time) ≤ 1 := by
              rw [div_le_one hdt]
              linarith
            nlinarith
          have hgt := t2sScan_gt b hb y r curr hcv hrv2 hchain2 hyc
          simp only [t2sScan, if_pos hxc, if_neg hy]
          linarith
        · simp only [t2sScan, if_neg hxc, if_neg hy]
          exact ih curr hcv hrv2 hchain2 (by linarith [not_le.mp hxc])

/-- Under the well-formedness invariant, `tick_to_seconds` is strictly
monotone in the tick. -/
theorem tick_to_seconds_strictMono (shifts : List BpmShift) (b : ℚ) (hb : 0 < b)
    (hwf : shiftsWF shifts b) (x y : ℚ) (hxy : x < y) :
    tick_to_seconds x shifts b < tick_to_seconds y shifts b := by
  obtain ⟨hmono, hval, hfc⟩ := hwf
  match shifts with
  | [] =>
      simp only [tick_to_seconds]
      have hrate : (0 : ℚ) < 60 / b := by positivity
      exact mul_lt_mul_of_pos_right hxy hrate
  | f :: rest =>
      have hfv : 0 < f.value := hval f (by simp)
      have hrv : ∀ x ∈ rest, 0 < x.value := fun x hx => hval x (by simp [hx])
      have hrate : (0 : ℚ) < 60 / (b * f.value) := by positivity
      have hfc2 : f.floorPosition = f.time * (60 / (b * f.value)) := hfc
      by_cases hy : y ≤ f.time
      · have hx2 : x ≤ f.time := le_of_lt (lt_of_lt_of_le hxy hy)
        simp only [tick_to_seconds, if_pos hx2, if_pos hy]
        exact mul_lt_mul_of_pos_right hxy hrate
      · by_cases hx2 : x ≤ f.time
        · have hyc : f.time < y := not_le.mp hy
          have hgt := t2sScan_gt b hb y rest f hfv hrv hmono hyc
          have hle : x * (60 / (b * f.value)) ≤ f.floorPosition := by
            rw [hfc2]
            exact mul_le_mul_of_nonneg_right hx2 (le_of_lt hrate)
          simp only [tick_to_seconds, if_pos hx2, if_neg hy]
          linarith
        · simp only [tick_to_seconds, if_neg hx2, if_neg hy]
          exact t2sScan_strictMono b hb x y hxy rest f hfv hrv hmono
            (by linarith [not_le.mp hx2])

/-- Characterization of the `speed_to_fp` search: for keyframes sorted
by mapped seconds with the query at or past the first keyframe, the loop
returns the last index whose mapped seconds is at most the query. -/
theorem stfLoop_char (kps : List KeyPoint) (sh : List BpmShift) (b timer : ℚ)
    (hsorted : ∀ i j : ℕ, i < j → j < kps.length →
      tick_to_seconds ((kps.getD i kp0).time) sh b ≤
        tick_to_seconds ((kps.getD j kp0).time) sh b)
    (h0 : tick_to_seconds ((kps.getD 0 kp0).time) sh b ≤ timer) :
    ∀ (fuel left right target : ℕ),
      right + 1 - left ≤ fuel →
      left ≤ right + 1 →
      right < kps.length →
      (∀ j, right < j → j < kps.length →
        timer < tick_to_seconds ((kps.getD j kp0).time) sh b) →
      (left = 0 ∨ (1 ≤ left ∧ target = left - 1 ∧
        tick_to_seconds ((kps.getD target kp0).time) sh b ≤ timer)) →
      stfLoop kps sh b timer fuel left right target < kps.length ∧
      tick_to_seconds ((kps.getD (stfLoop kps sh b timer fuel left right target) kp0).time)
        sh b ≤ timer ∧
      (∀ j, stfLoop kps sh b timer fuel left right target < j → j < kps.length →
        timer < tick_to_seconds ((kps.getD j kp0).time) sh b) := by
  intro fuel
  induction fuel with
  | zero =>
      intro left right target hfuel hlr hrn hA2 hT
      have hleft : left = right + 1 := by omega
      rcases hT with h0' | ⟨hge, htar, hsec⟩
      · omega
      · have htr : target = right := by omega
        simp only [stfLoop]
        exact ⟨by omega, hsec, by rw [htr]; exact hA2⟩
  | succ fuel ih =>
      intro left right target hfuel hlr hrn hA2 hT
      by_cases hlr2 : left ≤ right
      · have hmidl : left ≤ (left + right) / 2 := by omega
        have hmidr : (left + right) / 2 ≤ right := by omega
        have hmidn : (left + right) / 2 < kps.length := by omega
        by_cases hcmp :
            tick_to_seconds ((kps.getD ((left + right) / 2) kp0).time) sh b ≤ timer
        · simp only [stfLoop, if_pos hlr2, if_pos hcmp]
          apply ih ((left + right) / 2 + 1) right ((left + right) / 2)
          · omega
          · omega
          · exact hrn
          · exact hA2
          · right
            exact ⟨by omega, by omega, hcmp⟩
        · by_cases hm0 : (left + right) / 2 = 0
          · exfalso
            rw [hm0] at hcmp
            exact hcmp h0
          · simp only [stfLoop, if_pos hlr2, if_neg hcmp, if_neg hm0]
            apply ih left ((left + right) / 2 - 1) target
            · omega
            · omega
            · omega
            · intro j hj hjn
              rcases Nat.lt_or_ge ((left + right) / 2) j with hj2 | hj2
              · exact lt_of_lt_of_le (not_le.mp hcmp) (hsorted _ _ hj2 hjn)
              · have : j = (left + right) / 2 := by omega
                rw [this]
                exact not_le.mp hcmp
            · exact hT
      · have hleft : left = right + 1 := by omega
        rcases hT with h0' | ⟨hge, htar, hsec⟩
        · omega
        · have htr : target = right := by omega
          simp only [stfLoop, if_neg hlr2]
          exact ⟨by omega, hsec, by rw [htr]; exact hA2⟩

/-- Unfolding of `speed_to_fp` on a non-empty list. -/
theorem speed_to_fp_eq (timer : ℚ) (kps : List KeyPoint) (sh : List BpmShift) (b : ℚ)
    (hne : kps ≠ []) :
    speed_to_fp timer kps sh b =
      (kps.getD (stfLoop kps sh b timer kps.length 0 (kps.length - 1) (kps.length - 1))
          kp0).fp.getD 0 +
        (timer -
          tick_to_seconds
            ((kps.getD
              (stfLoop kps sh b timer kps.length 0 (kps.length - 1) (kps.length - 1))
                kp0).time) sh b) *
          (kps.getD (stfLoop kps sh b timer kps.length 0 (kps.length - 1) (kps.length - 1))
            kp0).value := by
  match kps, hne with
  | k :: r, _ => rfl

theorem recalc_fp0 (kps : List KeyPoint) (sh : List BpmShift) (b : ℚ) (hne : kps ≠ []) :
    ((recalculate_fps kps sh b).getD 0 kp0).fp = some 0 := by
  match kps, hne with
  | first :: rest, _ => rfl

theorem recalc_fp_succ (kps : List KeyPoint) (sh : List BpmShift) (b : ℚ) (i : ℕ)
    (hi : i + 1 < kps.length) :
    ((recalculate_fps kps sh b).getD (i + 1) kp0).fp.getD 0 =
      ((recalculate_fps kps sh b).getD i kp0).fp.getD 0 +
        ((recalculate_fps kps sh b).getD i kp0).value *
          (tick_to_seconds ((recalculate_fps kps sh b).getD (i + 1) kp0).time sh b -
            tick_to_seconds ((recalculate_fps kps sh b).getD i kp0).time sh b) := by
  match kps with
  | [] => simp at hi
  | first :: rest =>
      have hlen2 : i < rest.length := by
        simp only [List.length_cons] at hi
        omega
      have hrec := recalcAux_fp sh b rest { first with fp := some 0 } i hlen2
      have heq : recalculate_fps (first :: rest) sh b =
          ({ first with fp := some 0 } : KeyPoint) ::
            recalcAux sh b { first with fp := some 0 } rest := rfl
      rw [heq, hrec, Option.getD_some]

theorem recalc_fpv_mono (kps : List KeyPoint) (sh : List BpmShift) (b : ℚ)
    (hv : ∀ i, i < kps.length → 0 ≤ (kps.getD i kp0).value)
    (hsec : ∀ i j : ℕ, i < j → j < kps.length →
      tick_to_seconds ((kps.getD i kp0).time) sh b ≤
        tick_to_seconds ((kps.getD j kp0).time) sh b) :
    ∀ (d j : ℕ), j + d < kps.length →
      ((recalculate_fps kps sh b).getD j kp0).fp.getD 0 ≤
        ((recalculate_fps kps sh b).getD (j + d) kp0).fp.getD 0 := by
  intro d
  induction d with
  | zero => intro j h; simp
  | succ d ih =>
      intro j h
      have h1 : j + d < kps.length := by omega
      have step := recalc_fp_succ kps sh b (j + d) (by omega)
      have hval := recalculate_fps_value kps sh b (j + d)
      have ht1 := recalculate_fps_time kps sh b (j + d)
      have ht2 := recalculate_fps_time kps sh b (j + d + 1)
      have hvnn : 0 ≤ (kps.getD (j + d) kp0).value := hv _ h1
      have hsecle : tick_to_seconds ((kps.getD (j + d) kp0).time) sh b ≤
          tick_to_seconds ((kps.getD (j + d + 1) kp0).time) sh b :=
        hsec _ _ (by omega) (by omega)
      have hstep2 : ((recalculate_fps kps sh b).getD (j + d) kp0).fp.getD 0 ≤
          ((recalculate_fps kps sh b).getD (j + d + 1) kp0).fp.getD 0 := by
        rw [step, hval, ht1, ht2]
        nlinarith [mul_nonneg hvnn (sub_nonneg.mpr hsecle)]
      have hjd : j + (d + 1) = j + d + 1 := by omega
      rw [hjd]
      exact le_trans (ih j h1) hstep2

/-- Chaining lemma: the extrapolated distance from an earlier bracketing
keyframe never exceeds the one from a later bracketing keyframe, thanks
to the cache recurrence (continuity at keyframes) and nonnegative
speeds. -/
theorem fp_chain (kps : List KeyPoint) (sh : List BpmShift) (b s1 s2 : ℚ)
    (hv : ∀ i, i < kps.length → 0 ≤ (kps.getD i kp0).value)
    (hsec : ∀ i j : ℕ, i < j → j < kps.length →
      tick_to_seconds ((kps.getD i kp0).time) sh b ≤
        tick_to_seconds ((kps.getD j kp0).time) sh b)
    (t1 t2 : ℕ) (ht12 : t1 ≤ t2) (ht2n : t2 < kps.length) (hs12 : s1 ≤ s2)
    (_h1le : tick_to_seconds ((recalculate_fps kps sh b).getD t1 kp0).time sh b ≤ s1)
    (hnext : t1 < t2 →
      s1 ≤ tick_to_seconds ((recalculate_fps kps sh b).getD (t1 + 1) kp0).time sh b)
    (h2le : tick_to_seconds ((recalculate_fps kps sh b).getD t2 kp0).time sh b ≤ s2) :
    ((recalculate_fps kps sh b).getD t1 kp0).fp.getD 0 +
      (s1 - tick_to_seconds ((recalculate_fps kps sh b).getD t1 kp0).time sh b) *
        ((recalculate_fps kps sh b).getD t1 kp0).value ≤
    ((recalculate_fps kps sh b).getD t2 kp0).fp.getD 0 +
      (s2 - tick_to_seconds ((recalculate_fps kps sh b).getD t2 kp0).time sh b) *
        ((recalculate_fps kps sh b).getD t2 kp0).value := by
  have hv1 : 0 ≤ ((recalculate_fps kps sh b).getD t1 kp0).value := by
    rw [recalculate_fps_value]
    exact hv _ (by omega)
  have hv2 : 0 ≤ ((recalculate_fps kps sh b).getD t2 kp0).value := by
    rw [recalculate_fps_value]
    exact hv _ ht2n
  rcases eq_or_lt_of_le ht12 with he | hlt
  · subst he
    have : (s1 - tick_to_seconds ((recalculate_fps kps sh b).getD t1 kp0).time sh b) *
        ((recalculate_fps kps sh b).getD t1 kp0).value ≤
        (s2 - tick_to_seconds ((recalculate_fps kps sh b).getD t1 kp0).time sh b) *
        ((recalculate_fps kps sh b).getD t1 kp0).value :=
      mul_le_mul_of_nonneg_right (by linarith) hv1
    linarith
  · have hstep := recalc_fp_succ kps sh b t1 (by omega)
    have hs1next := hnext hlt
    have hstep1 : ((recalculate_fps kps sh b).getD t1 kp0).fp.getD 0 +
        (s1 - tick_to_seconds ((recalculate_fps kps sh b).getD t1 kp0).time sh b) *
          ((recalculate_fps kps sh b).getD t1 kp0).value ≤
        ((recalculate_fps kps sh b).getD (t1 + 1) kp0).fp.getD 0 := by
      rw [hstep]
      nlinarith [mul_nonneg hv1 (sub_nonneg.mpr hs1next)]
    have hmono := recalc_fpv_mono kps sh b hv hsec (t2 - (t1 + 1)) (t1 + 1) (by omega)
    rw [show t1 + 1 + (t2 - (t1 + 1)) = t2 from by omega] at hmono
    have hstep3 : ((recalculate_fps kps sh b).getD t2 kp0).fp.getD 0 ≤
        ((recalculate_fps kps sh b).getD t2 kp0).fp.getD 0 +
          (s2 - tick_to_seconds ((recalculate_fps kps sh b).getD t2 kp0).time sh b) *
            ((recalculate_fps kps sh b).getD t2 kp0).value := by
      nlinarith [mul_nonneg hv2 (sub_nonneg.mpr h2le)]
    linarith

theorem transLtTimeKP :
    ∀ a c d : KeyPoint, a.time < c.time → c.time < d.time → a.time < d.time :=
  fun _ _ _ h1 h2 => lt_trans h1 h2

/-- C1 counterexample keyframes: speed 1 at tick 0, speed 0 at tick 2. -/
def cexKps : List KeyPoint := [⟨0, 1, 0, 0, none⟩, ⟨2, 0, 0, 0, none⟩]

/-- C1 counterexample: all claim hypotheses hold (nonnegative values,
well-formed empty shift list, recalculated caches), yet `speed_to_fp` is
strictly larger at time −1 than at time 0, because a query before the
first keyframe extrapolates backward from the LAST keyframe. -/
theorem claim1_monotone_counterexample :
    (∀ k ∈ cexKps, (0 : ℚ) ≤ k.value) ∧
    shiftsWF [] 60 ∧ (0 : ℚ) < 60 ∧
    List.Chain' (fun p q : KeyPoint => p.time < q.time) cexKps ∧
    (-1 : ℚ) ≤ 0 ∧
    speed_to_fp (-1) (recalculate_fps cexKps [] 60) [] 60 = 2 ∧
    speed_to_fp 0 (recalculate_fps cexKps [] 60) [] 60 = 0 := by
  refine ⟨by norm_num [cexKps], ⟨by simp [jointMonotone, cexKps], by simp, trivial⟩,
    by norm_num, by norm_num [cexKps], by norm_num, ?_, ?_⟩ <;>
    norm_num [cexKps, recalculate_fps, recalcAux, speed_to_fp, stfLoop,
      tick_to_seconds, kp0]

/-- C1 (amended): `speed_to_fp` over recalculated caches is monotone
non-decreasing in wall-clock time, for queries at or after the first
keyframe's wall-clock time, given nonnegative speeds, strictly ordered
keyframe ticks, and a well-formed tempo-shift list. -/
theorem claim1_monotone (kps : List KeyPoint) (shifts : List BpmShift) (b s1 s2 : ℚ)
    (hb : 0 < b) (hne : kps ≠ []) (hwf : shiftsWF shifts b)
    (hticks : List.Chain' (fun p q : KeyPoint => p.time < q.time) kps)
    (hv : ∀ k ∈ kps, 0 ≤ k.value)
    (hs1 : tick_to_seconds ((kps.getD 0 kp0).time) shifts b ≤ s1)
    (hs12 : s1 ≤ s2) :
    speed_to_fp s1 (recalculate_fps kps shifts b) shifts b ≤
      speed_to_fp s2 (recalculate_fps kps shifts b) shifts b := by
  haveI : IsTrans KeyPoint (fun p q : KeyPoint => p.time < q.time) := ⟨transLtTimeKP⟩
  have hKlen : (recalculate_fps kps shifts b).length = kps.length :=
    recalculate_fps_length kps shifts b
  have hnpos : 0 < kps.length := List.length_pos.mpr hne
  have hKne : recalculate_fps kps shifts b ≠ [] := by
    intro h
    rw [h] at hKlen
    simp at hKlen
    omega
  have hpw : kps.Pairwise (fun p q : KeyPoint => p.time < q.time) :=
    (List.chain'_iff_pairwise).mp hticks
  have hv2 : ∀ i, i < kps.length → 0 ≤ (kps.getD i kp0).value := by
    intro i hi
    have hmem : kps.getD i kp0 ∈ kps := by
      rw [List.getD_eq_getElem kps kp0 hi]
      exact List.getElem_mem hi
    exact hv _ hmem
  have hsec : ∀ i j : ℕ, i < j → j < kps.length →
      tick_to_seconds ((kps.getD i kp0).time) shifts b ≤
        tick_to_seconds ((kps.getD j kp0).time) shifts b := by
    intro i j hij hj
    exact le_of_lt (tick_to_seconds_strictMono shifts b hb hwf _ _
      (pairwise_getD hpw kp0 hij hj))
  have hsecK : ∀ i j : ℕ, i < j → j < (recalculate_fps kps shifts b).length →
      tick_to_seconds (((recalculate_fps kps shifts b).getD i kp0).time) shifts b ≤
        tick_to_seconds (((recalculate_fps kps shifts b).getD j kp0).time) shifts b := by
    intro i j hij hj
    rw [recalculate_fps_time, recalculate_fps_time]
    exact hsec i j hij (by omega)
  have h0K1 : tick_to_seconds (((recalculate_fps kps shifts b).getD 0 kp0).time)
      shifts b ≤ s1 := by
    rw [recalculate_fps_time]
    exact hs1
  have h0K2 : tick_to_seconds (((recalculate_fps kps shifts b).getD 0 kp0).time)
      shifts b ≤ s2 := le_trans h0K1 hs12
  have hP1 := stfLoop_char (recalculate_fps kps shifts b) shifts b s1 hsecK h0K1
    (recalculate_fps kps shifts b).length 0 ((recalculate_fps kps shifts b).length - 1)
    ((recalculate_fps kps shifts b).length - 1)
    (by omega) (by omega) (by omega)
    (fun j h1 h2 => absurd h2 (by omega))
    (Or.inl rfl)
  have hP2 := stfLoop_char (recalculate_fps kps shifts b) shifts b s2 hsecK h0K2
    (recalculate_fps kps shifts b).length 0 ((recalculate_fps kps shifts b).length - 1)
    ((recalculate_fps kps shifts b).length - 1)
    (by omega) (by omega) (by omega)
    (fun j h1 h2 => absurd h2 (by omega))
    (Or.inl rfl)
  obtain ⟨ht1n, ht1le, ht1above⟩ := hP1
  obtain ⟨ht2n, ht2le, ht2above⟩ := hP2
  have ht12 : stfLoop (recalculate_fps kps shifts b) shifts b s1
      (recalculate_fps kps shifts b).length 0 ((recalculate_fps kps shifts b).length - 1)
      ((recalculate_fps kps shifts b).length - 1) ≤
      stfLoop (recalculate_fps kps shifts b) shifts b s2
      (recalculate_fps kps shifts b).length 0 ((recalculate_fps kps shifts b).length - 1)
      ((recalculate_fps kps shifts b).length - 1) := by
    by_contra hc
    push_neg at hc
    have := ht2above _ hc ht1n
    linarith
  rw [speed_to_fp_eq s1 _ _ _ hKne, speed_to_fp_eq s2 _ _ _ hKne]
  apply fp_chain kps shifts b s1 s2 hv2 hsec _ _ ht12 (by omega) hs12 ht1le ?_ ht2le
  intro hlt
  exact le_of_lt (ht1above _ (by omega) (by omega))

/-- C1 witness: the scenario keyframes at 120 BPM, queried at 1 s and
3 s (both past the first keyframe's time 0 s). -/
theorem claim1_monotone_witness :
    speed_to_fp 1 (recalculate_fps scenarioKps [] 120) [] 120 ≤
      speed_to_fp 3 (recalculate_fps scenarioKps [] 120) [] 120 :=
  claim1_monotone scenarioKps [] 120 1 3 (by norm_num) (by simp [scenarioKps])
    ⟨by simp [jointMonotone, scenarioKps], by simp, trivial⟩
    (by norm_num [scenarioKps]) (by norm_num [scenarioKps])
    (by norm_num [scenarioKps, tick_to_seconds, kp0]) (by norm_num)

end ChRzl
